import Mathlib

/-!
Verification development for the atom pipeline of the topiary code formatter
(`src/atom_collection.rs`).  The Rust data model and operations are shallowly
embedded: `Atom` mirrors the tagged variant type, `AtomCollection` mirrors the
collection struct (hash maps become association lists, sets become lists of
ids), and each pass of the pipeline is translated function by function.
Machine panics are modelled with `Option`; fallible operations return the
updated state together with an optional error message.
-/

namespace Topiary

/-- The atom variant type, translated from the `Atom` enum used by
`atom_collection.rs` (see the data model table of the specification). -/
inductive Atom where
  | Leaf (content : String) (id : Nat)
  | Literal (s : String)
  | MultilineOnlyLiteral (s : String)
  | Space
  | Hardline
  | Blankline
  | Softline (spaced : Bool)
  | ScopedSoftline (id : Nat) (scope_id : String) (spaced : Bool)
  | IndentStart
  | IndentEnd
  | DeleteBegin
  | DeleteEnd
deriving DecidableEq, Repr

/-- The three whitespace atoms merged by the Whitespace Normaliser. -/
def Atom.isWhitespace : Atom → Bool
  | .Space => true
  | .Hardline => true
  | .Blankline => true
  | _ => false

/-- Translation of `is_dominant`.  The Rust function panics when `next` is not
a space or line atom; the panic is modelled by `none`. -/
def is_dominant (next prev : Atom) : Option Bool :=
  match next with
  | .Space => some false
  | .Hardline => some (prev == .Space)
  | .Blankline => some (prev != .Blankline)
  | _ => none

/-- Translation of `post_process_internal`, with the possible panic of
`is_dominant` propagated as `none`.  `new_vec` is the output vector built so
far; the caller guarantees that `prev` is its last element. -/
def post_process_internalP (new_vec : List Atom) (prev next : Atom) :
    Option (List Atom) :=
  match prev with
  | .Space | .Hardline | .Blankline =>
    match next with
    | .Space | .Hardline | .Blankline =>
      match is_dominant next prev with
      | some true => some (new_vec.dropLast ++ [next])
      | some false => some new_vec
      | none => none
    | .IndentStart | .IndentEnd => some (new_vec.dropLast ++ [next, prev])
    | _ => some (new_vec ++ [next])
  | .DeleteBegin =>
    if next == .DeleteEnd then some new_vec.dropLast else some new_vec
  | _ => some (new_vec ++ [next])

/-- Total version of `post_process_internal`.  Inside the branch where both
`prev` and `next` are space or line atoms, `is_dominant` never panics, so the
default value supplied to `Option.getD` is never used; the theorem for the
safety claim proves this version equal to the panic-propagating one. -/
def post_process_internal (new_vec : List Atom) (prev next : Atom) :
    List Atom :=
  match prev with
  | .Space | .Hardline | .Blankline =>
    match next with
    | .Space | .Hardline | .Blankline =>
      if (is_dominant next prev).getD false then new_vec.dropLast ++ [next]
      else new_vec
    | .IndentStart | .IndentEnd => new_vec.dropLast ++ [next, prev]
    | _ => new_vec ++ [next]
  | .DeleteBegin =>
    if next == .DeleteEnd then new_vec.dropLast else new_vec
  | _ => new_vec ++ [next]

/-- The loop of `post_process`: fold the incoming atoms into `new_vec`.
While `new_vec` is empty, leading space and line atoms are skipped. -/
def post_process_loop (new_vec : List Atom) : List Atom → List Atom
  | [] => new_vec
  | next :: rest =>
    match new_vec.getLast? with
    | some prev => post_process_loop (post_process_internal new_vec prev next) rest
    | none =>
      match next with
      | .Space | .Hardline | .Blankline => post_process_loop new_vec rest
      | _ => post_process_loop (new_vec ++ [next]) rest

/-- The loop of `post_process` with the possible panic propagated. -/
def post_process_loopP (new_vec : List Atom) : List Atom → Option (List Atom)
  | [] => some new_vec
  | next :: rest =>
    match new_vec.getLast? with
    | some prev =>
      (post_process_internalP new_vec prev next).bind
        (fun v => post_process_loopP v rest)
    | none =>
      match next with
      | .Space | .Hardline | .Blankline => post_process_loopP new_vec rest
      | _ => post_process_loopP (new_vec ++ [next]) rest

/-- Translation of `ensure_final_hardline`. -/
def ensure_final_hardline (v : List Atom) : List Atom :=
  match v.getLast? with
  | some .Hardline => v
  | _ => v ++ [.Hardline]

/-! ### Association-list model of the hash maps -/

/-- `HashMap` lookup, on an association-list model of the map. -/
def mapLookup {α β : Type} [DecidableEq α] (m : List (α × β)) (k : α) :
    Option β :=
  match m with
  | [] => none
  | (k', v) :: rest => if k' = k then some v else mapLookup rest k

/-- `HashMap::insert`: overwrite the value at `k`, or add a new entry. -/
def mapInsert {α β : Type} [DecidableEq α] (m : List (α × β)) (k : α)
    (v : β) : List (α × β) :=
  match m with
  | [] => [(k, v)]
  | (k', v') :: rest =>
    if k' = k then (k, v) :: rest else (k', v') :: mapInsert rest k v

/-- `HashMap::remove`: return the removed value (if any) and the new map. -/
def mapRemove {α β : Type} [DecidableEq α] (m : List (α × β)) (k : α) :
    Option β × List (α × β) :=
  match m with
  | [] => (none, [])
  | (k', v) :: rest =>
    if k' = k then (some v, rest)
    else
      let r := mapRemove rest k
      (r.1, (k', v) :: r.2)

/-- Replace the value stored at `k`, inserting the entry if absent
(`entry(k).and_modify(f).or_insert(f default)` style updates). -/
def mapUpdate {α β : Type} [DecidableEq α] (m : List (α × β)) (k : α)
    (d : β) (f : β → β) : List (α × β) :=
  match m with
  | [] => [(k, f d)]
  | (k', v) :: rest =>
    if k' = k then (k', f v) :: rest else (k', v) :: mapUpdate rest k d f

/-! ### The atom collection -/

/-- Translation of the `AtomCollection` struct.  The hash maps are modelled as
association lists and the id sets as lists of ids. -/
structure AtomCollection where
  atoms : List Atom
  prepend : List (Nat × List Atom)
  append : List (Nat × List Atom)
  specified_leaf_nodes : List Nat
  multi_line_nodes : List Nat
  blank_lines_before : List Nat
  line_break_before : List Nat
  line_break_after : List Nat
  scope_begin : List (Nat × (Nat × List String))
  scope_end : List (Nat × (Nat × List String))
  counter : Nat
deriving DecidableEq, Repr

/-! ### Scope resolver (`post_process_scopes`) -/

/-- One frame of `opened_scopes`: the line at which the scope started and the
`ScopedSoftline` atoms collected in it (in encounter order). -/
structure ScopeFrame where
  line_start : Nat
  pending : List Atom
deriving DecidableEq, Repr

/-- The state threaded through the first pass of `post_process_scopes`.
In each stack of `opened` the head is the innermost open frame (the Rust
`Vec` pushes and pops at its end; the list here pushes and pops at its
head, which is order-isomorphic). -/
structure ScopeState where
  opened : List (String × List ScopeFrame)
  mods : List (Nat × Option Atom)
  force_apply : Bool
deriving DecidableEq, Repr

/-- Record the modifications for every `ScopedSoftline` pending in a popped
frame: `Hardline` when the scope spans several lines, else `Space` when the
softline is spaced, else no replacement.  (`line_start` is the popped
frame's start line; the last argument is the frame's pending list.) -/
def recordMods (mods : List (Nat × Option Atom)) (line_start line_end : Nat) :
    List Atom → List (Nat × Option Atom)
  | [] => mods
  | a :: rest =>
    match a with
    | .ScopedSoftline id _ spaced =>
      recordMods
        (mapInsert mods id
          (if line_start ≠ line_end then some .Hardline
           else if spaced then some .Space
           else none))
        line_start line_end rest
    | _ => recordMods mods line_start line_end rest

/-- Close one scope: pop the innermost frame of the stack of `sid` and record
its modifications; closing an unopened scope sets the force-apply flag. -/
def closeOne (line_end : Nat) (st : ScopeState) (sid : String) : ScopeState :=
  match mapLookup st.opened sid with
  | some (frame :: rest) =>
    { st with
      opened := mapUpdate st.opened sid [] (fun _ => rest)
      mods := recordMods st.mods frame.line_start line_end frame.pending }
  | _ => { st with force_apply := true }

/-- Attach a `ScopedSoftline` atom to the innermost open frame of its scope;
if there is none, set the force-apply flag. -/
def attachScoped (st : ScopeState) (a : Atom) (sid : String) : ScopeState :=
  match mapLookup st.opened sid with
  | some (frame :: rest) =>
    { st with
      opened := mapUpdate st.opened sid []
        (fun _ => { frame with pending := frame.pending ++ [a] } :: rest) }
  | _ => { st with force_apply := true }

/-- Open one scope: push a fresh frame (with the recorded start line and no
pending softlines) onto the stack of `sid`. -/
def openOne (line_start : Nat) (o : List (String × List ScopeFrame))
    (sid : String) : List (String × List ScopeFrame) :=
  mapUpdate o sid [] (fun stk => ⟨line_start, []⟩ :: stk)

/-- One step of the first pass of `post_process_scopes`: open the scopes
beginning at a leaf, close the scopes ending at it, and attach scoped
softlines to their innermost frame. -/
def scope_step (sb se : List (Nat × (Nat × List String))) (st : ScopeState)
    (a : Atom) : ScopeState :=
  match a with
  | .Leaf _ id =>
    let st1 :=
      match mapLookup sb id with
      | some (line_start, sids) =>
        { st with opened := sids.foldl (openOne line_start) st.opened }
      | none => st
    match mapLookup se id with
    | some (line_end, sids) => sids.foldl (closeOne line_end) st1
    | none => st1
  | .ScopedSoftline _ sid _ => attachScoped st a sid
  | _ => st

/-- The second pass of `post_process_scopes`: replace every `ScopedSoftline`
by its recorded modification (removing it from the map, so a duplicate id is
dropped), and keep every other atom. -/
def applyMods (mods : List (Nat × Option Atom)) : List Atom → List Atom
  | [] => []
  | a :: rest =>
    match a with
    | .ScopedSoftline id _ _ =>
      match mapRemove mods id with
      | (some o, mods') => o.toList ++ applyMods mods' rest
      | (none, mods') => applyMods mods' rest
    | _ => a :: applyMods mods rest

/-- Translation of `AtomCollection::post_process_scopes`. -/
def AtomCollection.post_process_scopes (c : AtomCollection) : AtomCollection :=
  let st := c.atoms.foldl (scope_step c.scope_begin c.scope_end) ⟨[], [], false⟩
  let still_opened := st.opened.any (fun p => !p.2.isEmpty)
  let force := st.force_apply || still_opened
  if !st.mods.isEmpty || force then
    { c with atoms := applyMods st.mods c.atoms }
  else c

/-- Translation of `AtomCollection::post_process`: resolve scopes, merge the
space and line atoms, and guarantee a final hardline. -/
def AtomCollection.post_process (c : AtomCollection) : AtomCollection :=
  let c1 := c.post_process_scopes
  { c1 with atoms := ensure_final_hardline (post_process_loop [] c1.atoms) }

/-- `post_process` with the possible panic of `is_dominant` propagated. -/
def AtomCollection.post_processP (c : AtomCollection) :
    Option AtomCollection :=
  let c1 := c.post_process_scopes
  (post_process_loopP [] c1.atoms).map
    (fun v => { c1 with atoms := ensure_final_hardline v })

/-! ### Expansion pass (`apply_prepends_and_appends`) -/

/-- `entry(id).or_default()`: look the bucket up, inserting an empty bucket
when the key is absent (this mirrors the `HashMap::entry` API used by
`apply_prepends_and_appends`, which mutates the map on a missing key). -/
def orDefault (m : List (Nat × List Atom)) (k : Nat) :
    List Atom × List (Nat × List Atom) :=
  match mapLookup m k with
  | some v => (v, m)
  | none => ([], m ++ [(k, [])])

/-- One step of the expansion fold: around a leaf atom, emit its prepend
bucket, the leaf, then its append bucket (threading the two maps, which
`or_default` may extend with empty buckets); pass every other atom through. -/
def expandStep
    (acc : List Atom × List (Nat × List Atom) × List (Nat × List Atom))
    (atom : Atom) :
    List Atom × List (Nat × List Atom) × List (Nat × List Atom) :=
  match atom with
  | .Leaf _ id =>
    let (pres, pre') := orDefault acc.2.1 id
    let (apps, app') := orDefault acc.2.2 id
    (acc.1 ++ pres ++ [atom] ++ apps, pre', app')
  | _ => (acc.1 ++ [atom], acc.2.1, acc.2.2)

/-- Translation of `AtomCollection::apply_prepends_and_appends`: flatten the
prepend and append buckets around each leaf into a single atom sequence. -/
def AtomCollection.apply_prepends_and_appends (c : AtomCollection) :
    AtomCollection :=
  let folded := c.atoms.foldl expandStep ([], c.prepend, c.append)
  { c with atoms := folded.1, prepend := folded.2.1, append := folded.2.2 }

/-! ### The concrete syntax tree -/

/-- A CST node: stable id, verbatim text (used when the node becomes a leaf
atom), start and end rows, and children in source order. -/
inductive Tree where
  | node (id : Nat) (text : String) (startRow endRow : Nat)
      (children : List Tree)

def Tree.id : Tree → Nat
  | .node i _ _ _ _ => i

def Tree.text : Tree → String
  | .node _ tx _ _ _ => tx

def Tree.startRow : Tree → Nat
  | .node _ _ s _ _ => s

def Tree.endRow : Tree → Nat
  | .node _ _ _ e _ => e

def Tree.children : Tree → List Tree
  | .node _ _ _ _ cs => cs

/-- `anc` is the ancestor chain of `n` inside the root `t`, nearest ancestor
first (the root itself has no ancestors, matching `Node::parent`). -/
inductive Path : Tree → List Tree → Tree → Prop where
  | refl (t : Tree) : Path t [] t
  | step {t : Tree} {anc : List Tree} {n c : Tree} :
      Path t anc n → c ∈ n.children → Path t (n :: anc) c

/-- Translation of `first_leaf`: descend through first children until a
childless node is reached. -/
def first_leaf : Tree → Tree
  | .node i tx s e [] => .node i tx s e []
  | .node _ _ _ _ (c :: _) => first_leaf c

/-- The ancestor chain of `first_leaf n` inside `n`, nearest first. -/
def firstLeafChain : Tree → List Tree
  | .node _ _ _ _ [] => []
  | .node i tx s e (c :: cs) => firstLeafChain c ++ [.node i tx s e (c :: cs)]

mutual

/-- Translation of `last_leaf`: descend through last children until a
childless node is reached. -/
def last_leaf : Tree → Tree
  | .node i tx s e [] => .node i tx s e []
  | .node _ _ _ _ (c :: cs) => lastLeafList c cs
termination_by t => sizeOf t
decreasing_by all_goals (simp_wf <;> omega)

def lastLeafList : Tree → List Tree → Tree
  | c, [] => last_leaf c
  | _, c :: cs => lastLeafList c cs
termination_by c cs => 1 + sizeOf c + sizeOf cs
decreasing_by all_goals (simp_wf <;> omega)

end

mutual

/-- The ancestor chain of `last_leaf n` inside `n`, nearest first. -/
def lastLeafChain : Tree → List Tree
  | .node _ _ _ _ [] => []
  | .node i tx s e (c :: cs) =>
    lastLeafChainList c cs ++ [.node i tx s e (c :: cs)]
termination_by t => sizeOf t
decreasing_by all_goals (simp_wf <;> omega)

def lastLeafChainList : Tree → List Tree → List Tree
  | c, [] => lastLeafChain c
  | _, c :: cs => lastLeafChainList c cs
termination_by c cs => 1 + sizeOf c + sizeOf cs
decreasing_by all_goals (simp_wf <;> omega)

end

mutual

/-- Translation of `collect_leafs_inner`: emit one `Leaf` atom per node that
is childless or externally specified as an opaque leaf; descent does not
continue below such a node. -/
def collect_leafs_inner (S : List Nat) : Tree → List Atom
  | .node i tx _ _ cs =>
    if cs.isEmpty || decide (i ∈ S) then [.Leaf tx i]
    else collectList S cs

def collectList (S : List Nat) : List Tree → List Atom
  | [] => []
  | c :: cs => collect_leafs_inner S c ++ collectList S cs

end

/-- The ids occurring as `Leaf` atoms in a sequence. -/
def leafIds (l : List Atom) : List Nat :=
  l.filterMap (fun a => match a with | .Leaf _ i => some i | _ => none)

/-- Translation of `parent_leaf_node`: walk up the ancestor chain (nearest
first) and return the first ancestor that is a specified leaf node, or the
node itself when there is none. -/
def parent_leaf_node (S : List Nat) (ancestors : List Tree) (n : Tree) :
    Tree :=
  match ancestors with
  | [] => n
  | a :: rest => if a.id ∈ S then a else parent_leaf_node S rest n

/-- The node a prepend directive on `n` (with ancestor chain `anc`) is
re-homed to: `parent_leaf_node` applied to the first leaf under `n`. -/
def prepend_target (S : List Nat) (n : Tree) (anc : List Tree) : Tree :=
  parent_leaf_node S (firstLeafChain n ++ anc) ( first_leaf n)

/-- The node an append directive on `n` is re-homed to: `parent_leaf_node`
applied to the last leaf under `n`. -/
def append_target (S : List Nat) (n : Tree) (anc : List Tree) : Tree :=
  parent_leaf_node S (lastLeafChain n ++ anc) ( last_leaf n)

/-! ### Capture resolver -/

/-- Translation of `expand_multiline`.  `parent` is the id of the parent of
the captured node, when it has one. -/
def expand_multiline (multi_line_nodes : List Nat) (parent : Option Nat)
    (atom : Atom) : Option Atom :=
  match atom with
  | .Softline spaced =>
    match parent with
    | some pid =>
      if pid ∈ multi_line_nodes then some .Hardline
      else if spaced then some .Space
      else none
    | none => none
  | .MultilineOnlyLiteral l =>
    match parent with
    | some pid =>
      if pid ∈ multi_line_nodes then some (.Literal l) else none
    | none => none
  | a => some a

/-- Push an atom at the end of the bucket stored at `k`
(`entry(k).and_modify(push).or_insert(vec![atom])`). -/
def bucketPush (m : List (Nat × List Atom)) (k : Nat) (a : Atom) :
    List (Nat × List Atom) :=
  mapUpdate m k [] (fun v => v ++ [a])

/-- Translation of `AtomCollection::prepend` (named `prependAtom` because the
structure field is already called `prepend`). -/
def AtomCollection.prependAtom (c : AtomCollection) (atom : Atom) (n : Tree)
    (anc : List Tree) : AtomCollection :=
  match expand_multiline c.multi_line_nodes (anc.head?.map Tree.id) atom with
  | some a =>
    { c with
      prepend :=
        bucketPush c.prepend (prepend_target c.specified_leaf_nodes n anc).id a }
  | none => c

/-- Translation of `AtomCollection::append`. -/
def AtomCollection.appendAtom (c : AtomCollection) (atom : Atom) (n : Tree)
    (anc : List Tree) : AtomCollection :=
  match expand_multiline c.multi_line_nodes (anc.head?.map Tree.id) atom with
  | some a =>
    { c with
      append :=
        bucketPush c.append (append_target c.specified_leaf_nodes n anc).id a }
  | none => c

/-- Push a scope id onto the entry at `k`; a fresh entry records `row`
(`entry(k).and_modify(push).or_insert((row, vec![sid]))`). -/
def scopePush (m : List (Nat × (Nat × List String))) (k row : Nat)
    (sid : String) : List (Nat × (Nat × List String)) :=
  mapUpdate m k (row, []) (fun p => (p.1, p.2 ++ [sid]))

/-- Translation of `AtomCollection::begin_scope_before`. -/
def AtomCollection.begin_scope_before (c : AtomCollection) (n : Tree)
    (anc : List Tree) (sid : String) : AtomCollection :=
  let target := prepend_target c.specified_leaf_nodes n anc
  { c with scope_begin := scopePush c.scope_begin target.id target.startRow sid }

/-- Translation of `AtomCollection::end_scope_after`. -/
def AtomCollection.end_scope_after (c : AtomCollection) (n : Tree)
    (anc : List Tree) (sid : String) : AtomCollection :=
  let target := append_target c.specified_leaf_nodes n anc
  { c with scope_end := scopePush c.scope_end target.id target.endRow sid }

/-- Translation of `AtomCollection::resolve_capture`.  The Rust function
mutates the collection and returns a `FormatterResult<()>`; here it returns
the updated collection together with an optional `QueryError` message.  Note
that the scoped-softline arms increment the id counter before the scope id is
checked, exactly as the Rust evaluation order does. -/
def AtomCollection.resolve_capture (c : AtomCollection) (name : String)
    (n : Tree) (anc : List Tree) (delimiter scope_id : Option String) :
    AtomCollection × Option String :=
  match name with
  | "allow_blank_line_before" =>
    if n.id ∈ c.blank_lines_before then (c.prependAtom .Blankline n anc, none)
    else (c, none)
  | "append_delimiter" =>
    match delimiter with
    | some d => (c.appendAtom (.Literal d) n anc, none)
    | none => (c, some ("requires a delimiter predicate"))
  | "append_empty_softline" => (c.appendAtom (.Softline false) n anc, none)
  | "append_hardline" => (c.appendAtom .Hardline n anc, none)
  | "append_indent_start" => (c.appendAtom .IndentStart n anc, none)
  | "append_indent_end" => (c.appendAtom .IndentEnd n anc, none)
  | "append_input_softline" =>
    (c.appendAtom
      (if n.id ∈ c.line_break_after then .Hardline else .Space) n anc, none)
  | "append_multiline_delimiter" =>
    match delimiter with
    | some d => (c.appendAtom (.MultilineOnlyLiteral d) n anc, none)
    | none => (c, some ("requires a delimiter predicate"))
  | "append_space" => (c.appendAtom .Space n anc, none)
  | "append_spaced_softline" => (c.appendAtom (.Softline true) n anc, none)
  | "prepend_delimiter" =>
    match delimiter with
    | some d => (c.prependAtom (.Literal d) n anc, none)
    | none => (c, some ("requires a delimiter predicate"))
  | "prepend_empty_softline" => (c.prependAtom (.Softline false) n anc, none)
  | "prepend_hardline" => (c.prependAtom .Hardline n anc, none)
  | "prepend_indent_start" => (c.prependAtom .IndentStart n anc, none)
  | "prepend_indent_end" => (c.prependAtom .IndentEnd n anc, none)
  | "prepend_input_softline" =>
    (c.prependAtom
      (if n.id ∈ c.line_break_before then .Hardline else .Space) n anc, none)
  | "prepend_multiline_delimiter" =>
    match delimiter with
    | some d => (c.prependAtom (.MultilineOnlyLiteral d) n anc, none)
    | none => (c, some ("requires a delimiter predicate"))
  | "prepend_space" => (c.prependAtom .Space n anc, none)
  | "prepend_spaced_softline" => (c.prependAtom (.Softline true) n anc, none)
  | "leaf" => (c, none)
  | "delete" =>
    ((c.prependAtom .DeleteBegin n anc).appendAtom .DeleteEnd n anc, none)
  | "begin_scope" =>
    match scope_id with
    | some s => (c.begin_scope_before n anc s, none)
    | none => (c, some ("requires a scope_id predicate"))
  | "end_scope" =>
    match scope_id with
    | some s => (c.end_scope_after n anc s, none)
    | none => (c, some ("requires a scope_id predicate"))
  | "append_empty_scoped_softline" =>
    let c2 := { c with counter := c.counter + 1 }
    match scope_id with
    | some s => (c2.appendAtom (.ScopedSoftline c2.counter s false) n anc, none)
    | none => (c2, some ("requires a scope_id predicate"))
  | "append_spaced_scoped_softline" =>
    let c2 := { c with counter := c.counter + 1 }
    match scope_id with
    | some s => (c2.appendAtom (.ScopedSoftline c2.counter s true) n anc, none)
    | none => (c2, some ("requires a scope_id predicate"))
  | "prepend_empty_scoped_softline" =>
    let c2 := { c with counter := c.counter + 1 }
    match scope_id with
    | some s => (c2.prependAtom (.ScopedSoftline c2.counter s false) n anc, none)
    | none => (c2, some ("requires a scope_id predicate"))
  | "prepend_spaced_scoped_softline" =>
    let c2 := { c with counter := c.counter + 1 }
    match scope_id with
    | some s => (c2.prependAtom (.ScopedSoftline c2.counter s true) n anc, none)
    | none => (c2, some ("requires a scope_id predicate"))
  | _ => (c, some ("is not a valid capture name"))

/-- The capture names recognised by `resolve_capture`. -/
def recognisedNames : List String :=
  ["allow_blank_line_before", "append_delimiter", "append_empty_softline",
   "append_hardline", "append_indent_start", "append_indent_end",
   "append_input_softline", "append_multiline_delimiter", "append_space",
   "append_spaced_softline", "prepend_delimiter", "prepend_empty_softline",
   "prepend_hardline", "prepend_indent_start", "prepend_indent_end",
   "prepend_input_softline", "prepend_multiline_delimiter", "prepend_space",
   "prepend_spaced_softline", "leaf", "delete", "begin_scope", "end_scope",
   "append_empty_scoped_softline", "append_spaced_scoped_softline",
   "prepend_empty_scoped_softline", "prepend_spaced_scoped_softline"]

/-- The captures that require a `#delimiter!` predicate. -/
def delimiterNames : List String :=
  ["append_delimiter", "prepend_delimiter",
   "append_multiline_delimiter", "prepend_multiline_delimiter"]

/-- The captures that require a `#scope_id!` predicate. -/
def scopeIdNames : List String :=
  ["begin_scope", "end_scope",
   "append_empty_scoped_softline", "append_spaced_scoped_softline",
   "prepend_empty_scoped_softline", "prepend_spaced_scoped_softline"]

/-! ### Predicates used to state the verified properties -/

/-- Rank of an atom in the whitespace dominance order
`Blankline > Hardline > Space`. -/
def wsRank : Atom → Nat
  | .Space => 1
  | .Hardline => 2
  | .Blankline => 3
  | _ => 0

/-- An adjacent pair is acceptable when its two atoms are not both
space or line atoms. -/
def okPair (a b : Atom) : Prop := (a.isWhitespace && b.isWhitespace) = false

instance (a b : Atom) : Decidable (okPair a b) :=
  inferInstanceAs (Decidable ((a.isWhitespace && b.isWhitespace) = false))

/-- `true` on `ScopedSoftline` atoms only. -/
def Atom.isScoped : Atom → Bool
  | .ScopedSoftline _ _ _ => true
  | _ => false

/-- No `ScopedSoftline` atom occurs in the sequence. -/
def noScopedSoftline (l : List Atom) : Bool :=
  l.all (fun a => !a.isScoped)

/-- `true` on the atoms that the resolution-time expansion removes:
`Softline` and `MultilineOnlyLiteral`. -/
def Atom.isSoftOrMultilineOnly : Atom → Bool
  | .Softline _ => true
  | .MultilineOnlyLiteral _ => true
  | _ => false

/-- The sequence contains neither `Softline` nor `MultilineOnlyLiteral`
atoms (true of `atoms` throughout the real pipeline, because
`expand_multiline` eliminates both at resolution time). -/
def noSoftOrMultilineOnly (l : List Atom) : Bool :=
  l.all (fun a => !a.isSoftOrMultilineOnly)

/-- `true` on the five ephemeral atom kinds that the specification says are
absent from the final sequence. -/
def Atom.isEphemeral : Atom → Bool
  | .Softline _ => true
  | .ScopedSoftline _ _ _ => true
  | .MultilineOnlyLiteral _ => true
  | .DeleteBegin => true
  | .DeleteEnd => true
  | _ => false

/-- None of the five ephemeral atom kinds occurs in the sequence. -/
def noEphemeral (l : List Atom) : Bool :=
  l.all (fun a => !a.isEphemeral)

mutual

/-- The `DeleteBegin`/`DeleteEnd` markers of the sequence form properly
matched, non-nested regions (each `DeleteBegin` is followed by a matching
`DeleteEnd`, with no markers in between). -/
def wellDeleted : List Atom → Bool
  | [] => true
  | .DeleteBegin :: rest => inDelete rest
  | .DeleteEnd :: _ => false
  | _ :: rest => wellDeleted rest

/-- The sequence continues an open delete region: some `DeleteEnd` closes it
before any other marker, and the remainder is well formed. -/
def inDelete : List Atom → Bool
  | [] => false
  | .DeleteEnd :: rest => wellDeleted rest
  | .DeleteBegin :: _ => false
  | _ :: rest => inDelete rest

end

/-- No specified (opaque) leaf node on the chain lies inside another
specified leaf node: after the first chain element whose id is specified,
no further element is specified.  The chain is ordered nearest ancestor
first, so this says the specified ancestors of the leaf are not nested. -/
def noNestedSpecified (S : List Nat) : List Tree → Bool
  | [] => true
  | a :: rest =>
    if a.id ∈ S then rest.all (fun b => decide (b.id ∉ S))
    else noNestedSpecified S rest

/-- Every value recorded in the modification map is a `Hardline`, a `Space`,
or no replacement (the only values `recordMods` ever stores). -/
def modsValuesGood (mods : List (Nat × Option Atom)) : Prop :=
  ∀ q ∈ mods, q.2 = some Atom.Hardline ∨ q.2 = some Atom.Space ∨ q.2 = none

/-- The scope-id keys of the opened-scope table are distinct (true of every
state reachable from the empty table, since `mapUpdate` never duplicates a
key). -/
def openedNodup (o : List (String × List ScopeFrame)) : Prop :=
  (o.map Prod.fst).Nodup

/-- Every atom pending in an open frame is a `ScopedSoftline` (the only
atoms `attachScoped` ever files). -/
def openedScopedOnly (o : List (String × List ScopeFrame)) : Prop :=
  ∀ p ∈ o, ∀ f ∈ p.2, ∀ a ∈ f.pending, a.isScoped = true

/-- Some open frame holds a pending scoped softline. -/
def openedWitness (o : List (String × List ScopeFrame)) : Prop :=
  ∃ p ∈ o, ∃ f ∈ p.2, f.pending ≠ []

/-- The structural invariant of the scope-resolver state. -/
def scopeInv (st : ScopeState) : Prop :=
  openedNodup st.opened ∧ openedScopedOnly st.opened ∧
    modsValuesGood st.mods

/-- The state remembers that a scoped softline was seen: the force-apply
flag is set, or a modification is recorded, or a frame holds a pending
softline.  Any of the three guarantees that the rewrite pass will run. -/
def scopeTracked (st : ScopeState) : Prop :=
  st.force_apply = true ∨ st.mods ≠ [] ∨ openedWitness st.opened

/-- The atom collection used by the concrete counterexample and witness
runs: no directives, no scopes, no scanner facts. -/
def emptyCollection : AtomCollection :=
  ⟨[], [], [], [], [], [], [], [], [], [], 0⟩

/-- The single-scope run used to verify the scoped-softline replacement
rule: a scope with id `s` opens at row `r1` on leaf `1`, closes at row `r2`
on leaf `2`, and contains one `ScopedSoftline`. -/
def scopedRun (r1 r2 : Nat) (spaced : Bool) : AtomCollection :=
  { emptyCollection with
    atoms := [.Leaf ("o") 1, .ScopedSoftline 7 ("s") spaced, .Leaf ("c") 2]
    scope_begin := [(1, (r1, ["s"]))]
    scope_end := [(2, (r2, ["s"]))] }

/-- Nested opaque-leaf tree: the root holds node `1`, which holds node `2`,
which holds the childless node `3`.  Nodes `1` and `2` are both specified
as opaque leaves. -/
def leafC : Tree := .node 3 ("ab") 0 0 []

def nodeB : Tree := .node 2 ("ab") 0 0 [leafC]

def nodeA : Tree := .node 1 ("ab") 0 0 [nodeB]

def rootT : Tree := .node 0 ("") 0 0 [nodeA]

/-- The collection obtained by collecting the leaves of `rootT` with nodes
`1` and `2` specified as opaque leaves. -/
def nestedLeafCollection : AtomCollection :=
  { emptyCollection with
    atoms := collect_leafs_inner [1, 2] rootT
    specified_leaf_nodes := [1, 2] }

/-- A flat two-node tree used as the witness input for leaf re-homing. -/
def wLeaf : Tree := .node 5 ("x") 0 0 []

def wRoot : Tree := .node 4 ("x") 0 0 [wLeaf]

/-! ## Theorems -/

/-- On space and line atoms, `is_dominant` never panics and agrees with the
strict order `Blankline > Hardline > Space`. -/
theorem is_dominant_rank (next prev : Atom) (hn : next.isWhitespace = true)
    (hp : prev.isWhitespace = true) :
    is_dominant next prev = some (decide (wsRank prev < wsRank next)) := by
  cases next <;> cases prev <;> simp_all [Atom.isWhitespace, is_dominant, wsRank]

/-- Claim C6: when the last emitted atom `prev` and the incoming atom `next`
are both space or line atoms, the Whitespace Normaliser replaces `prev` by
`next` exactly when `next` strictly dominates `prev` in the order
`Blankline > Hardline > Space`, and discards `next` otherwise (in
particular a `Blankline` never replaces another `Blankline`). -/
theorem whitespace_dominance_merge (v : List Atom) (prev next : Atom)
    (hp : prev.isWhitespace = true) (hn : next.isWhitespace = true) :
    post_process_internal (v ++ [prev]) prev next =
      if wsRank prev < wsRank next then v ++ [next] else v ++ [prev] := by
  cases prev <;> cases next <;>
    simp_all [Atom.isWhitespace, post_process_internal, is_dominant, wsRank,
      List.dropLast_concat]

/-- Witness for claim C6: a `Hardline` arriving after a `Space` replaces it. -/
theorem whitespace_dominance_merge_witness :
    Atom.Space.isWhitespace = true ∧ Atom.Hardline.isWhitespace = true ∧
    post_process_internal [Atom.Leaf ("a") 0, Atom.Space] Atom.Space
        Atom.Hardline =
      if wsRank Atom.Space < wsRank Atom.Hardline then
        [Atom.Leaf ("a") 0] ++ [Atom.Hardline]
      else [Atom.Leaf ("a") 0] ++ [Atom.Space] :=
  ⟨rfl, rfl,
    whitespace_dominance_merge [Atom.Leaf ("a") 0] Atom.Space Atom.Hardline
      rfl rfl⟩

/-- Claim C7: at resolution time, a `Softline` directive becomes `Hardline`
when the target node's parent is multi-line, else `Space` when spaced, else
nothing; a `MultilineOnlyLiteral` becomes a `Literal` exactly when the
parent is multi-line; and both are dropped when the node has no parent. -/
theorem expand_multiline_cases (mln : List Nat) (pid : Nat) (spaced : Bool)
    (l : String) :
    expand_multiline mln (some pid) (.Softline spaced) =
      (if pid ∈ mln then some .Hardline
       else if spaced then some .Space else none) ∧
    expand_multiline mln (some pid) (.MultilineOnlyLiteral l) =
      (if pid ∈ mln then some (.Literal l) else none) ∧
    expand_multiline mln none (.Softline spaced) = none ∧
    expand_multiline mln none (.MultilineOnlyLiteral l) = none :=
  ⟨rfl, rfl, rfl, rfl⟩

/-- The panic-propagating and the total version of `post_process_internal`
agree everywhere: the panic branch of `is_dominant` is unreachable. -/
theorem post_process_internalP_eq (v : List Atom) (prev next : Atom) :
    post_process_internalP v prev next =
      some (post_process_internal v prev next) := by
  cases prev <;> cases next <;> rfl

/-- The panic-propagating loop agrees with the total loop. -/
theorem post_process_loopP_eq (l : List Atom) :
    ∀ acc, post_process_loopP acc l = some (post_process_loop acc l) := by
  induction l with
  | nil => intro acc; rfl
  | cons next rest ih =>
    intro acc
    cases h : acc.getLast? with
    | some prev =>
      simp only [post_process_loopP, post_process_loop, h,
        post_process_internalP_eq, Option.some_bind]
      exact ih _
    | none =>
      cases next <;> simp only [post_process_loopP, post_process_loop, h] <;>
        exact ih _

/-- Claim C10: the Whitespace Normaliser never reaches the panic branch of
`is_dominant`; `post_process` is total, and the panic-propagating model of
the pass returns exactly the total result on every atom sequence. -/
theorem post_process_never_panics (c : AtomCollection) :
    c.post_processP = some c.post_process := by
  unfold AtomCollection.post_processP AtomCollection.post_process
  simp only [post_process_loopP_eq, Option.map_some']

/-- `post_process_scopes` only replaces the `atoms` field. -/
theorem post_process_scopes_fields (c : AtomCollection) :
    (c.post_process_scopes).prepend = c.prepend ∧
    (c.post_process_scopes).append = c.append ∧
    (c.post_process_scopes).scope_begin = c.scope_begin ∧
    (c.post_process_scopes).scope_end = c.scope_end ∧
    (c.post_process_scopes).counter = c.counter := by
  unfold AtomCollection.post_process_scopes
  dsimp only
  split <;> exact ⟨rfl, rfl, rfl, rfl, rfl⟩

/-- `or_default` extends the map by at most one empty bucket. -/
theorem orDefault_snd (m : List (Nat × List Atom)) (k : Nat) :
    ∃ extra, (orDefault m k).2 = m ++ extra ∧
      ∀ p ∈ extra, p.2 = ([] : List Atom) := by
  unfold orDefault
  cases mapLookup m k with
  | some v => exact ⟨[], by simp⟩
  | none => exact ⟨[(k, [])], by simp⟩

/-- The expansion fold only appends empty buckets to the two maps. -/
theorem expand_fold_maps (l : List Atom) :
    ∀ st : List Atom × List (Nat × List Atom) × List (Nat × List Atom),
      (∃ extra, (l.foldl expandStep st).2.1 = st.2.1 ++ extra ∧
        ∀ p ∈ extra, p.2 = ([] : List Atom)) ∧
      (∃ extra, (l.foldl expandStep st).2.2 = st.2.2 ++ extra ∧
        ∀ p ∈ extra, p.2 = ([] : List Atom)) := by
  induction l with
  | nil => intro st; exact ⟨⟨[], by simp⟩, ⟨[], by simp⟩⟩
  | cons a rest ih =>
    intro st
    rw [List.foldl_cons]
    obtain ⟨⟨e1, h1, g1⟩, ⟨e2, h2, g2⟩⟩ := ih (expandStep st a)
    have hstep :
        (∃ d, (expandStep st a).2.1 = st.2.1 ++ d ∧
          ∀ p ∈ d, p.2 = ([] : List Atom)) ∧
        (∃ d, (expandStep st a).2.2 = st.2.2 ++ d ∧
          ∀ p ∈ d, p.2 = ([] : List Atom)) := by
      unfold expandStep
      cases a <;> simp only
      case Leaf tx id =>
        obtain ⟨d1, hd1, gd1⟩ := orDefault_snd st.2.1 id
        obtain ⟨d2, hd2, gd2⟩ := orDefault_snd st.2.2 id
        exact ⟨⟨d1, by simp [hd1], gd1⟩, ⟨d2, by simp [hd2], gd2⟩⟩
      all_goals exact ⟨⟨[], by simp⟩, ⟨[], by simp⟩⟩
    obtain ⟨⟨d1, hd1, gd1⟩, ⟨d2, hd2, gd2⟩⟩ := hstep
    refine ⟨⟨d1 ++ e1, ?_, ?_⟩, ⟨d2 ++ e2, ?_, ?_⟩⟩
    · rw [h1, hd1, List.append_assoc]
    · intro p hp
      rcases List.mem_append.1 hp with h | h
      · exact gd1 p h
      · exact g1 p h
    · rw [h2, hd2, List.append_assoc]
    · intro p hp
      rcases List.mem_append.1 hp with h | h
      · exact gd2 p h
      · exact g2 p h

/-- Counterexample for claim C9: the Expansion Pass does mutate the
`prepend` table — `entry(id).or_default()` inserts an empty bucket for a
leaf id that has no directives, so the table differs afterwards. -/
theorem expansion_mutates_prepend_cx :
    ({ emptyCollection with atoms := [.Leaf ("a") 1] }
        : AtomCollection).apply_prepends_and_appends.prepend ≠
      ({ emptyCollection with atoms := [.Leaf ("a") 1] }
        : AtomCollection).prepend := by
  decide

/-- Claim C9 (amended): after the Capture Resolver phase, the Scope Resolver
and Whitespace Normaliser leave `prepend`, `append`, `scope_begin`,
`scope_end` and `counter` exactly unchanged, and the Expansion Pass leaves
`scope_begin`, `scope_end` and `counter` unchanged while changing `prepend`
and `append` only by appending empty buckets (so the lookup semantics of
both tables is preserved). -/
theorem later_passes_fields (c : AtomCollection) :
    ((c.post_process).prepend = c.prepend ∧
     (c.post_process).append = c.append ∧
     (c.post_process).scope_begin = c.scope_begin ∧
     (c.post_process).scope_end = c.scope_end ∧
     (c.post_process).counter = c.counter) ∧
    ((c.apply_prepends_and_appends).scope_begin = c.scope_begin ∧
     (c.apply_prepends_and_appends).scope_end = c.scope_end ∧
     (c.apply_prepends_and_appends).counter = c.counter) ∧
    (∃ extra, (c.apply_prepends_and_appends).prepend = c.prepend ++ extra ∧
      ∀ p ∈ extra, p.2 = ([] : List Atom)) ∧
    (∃ extra, (c.apply_prepends_and_appends).append = c.append ++ extra ∧
      ∀ p ∈ extra, p.2 = ([] : List Atom)) := by
  obtain ⟨h1, h2, h3, h4, h5⟩ := post_process_scopes_fields c
  refine ⟨⟨?_, ?_, ?_, ?_, ?_⟩, ⟨rfl, rfl, rfl⟩, ?_, ?_⟩
  · exact h1
  · exact h2
  · exact h3
  · exact h4
  · exact h5
  · exact (expand_fold_maps c.atoms ([], c.prepend, c.append)).1
  · exact (expand_fold_maps c.atoms ([], c.prepend, c.append)).2

/-- Claim C5: a `ScopedSoftline` attached to a scope frame popped at a
scope-end leaf is replaced by `Hardline` exactly when the frame's start row
differs from the recorded end row; otherwise it is replaced by `Space` when
its `spaced` flag is set, and dropped when it is not.  Stated for the
canonical single-scope run `scopedRun`, universally over the two rows and
the `spaced` flag. -/
theorem scoped_softline_rule (r1 r2 : Nat) (spaced : Bool) :
    ((scopedRun r1 r2 spaced).post_process_scopes).atoms =
      [.Leaf ("o") 1] ++
        (if r1 ≠ r2 then [.Hardline]
         else if spaced then [.Space] else []) ++ [.Leaf ("c") 2] := by
  rcases eq_or_ne r1 r2 with h | h
  · subst h
    cases spaced <;>
      simp [scopedRun, emptyCollection, AtomCollection.post_process_scopes,
        scope_step, closeOne, attachScoped, recordMods, mapInsert, mapLookup,
        mapUpdate, applyMods, mapRemove]
  · cases spaced <;>
      simp [h, scopedRun, emptyCollection, AtomCollection.post_process_scopes,
        scope_step, closeOne, attachScoped, recordMods, mapInsert, mapLookup,
        mapUpdate, applyMods, mapRemove]

/-- Claim C8: `resolve_capture` returns a `QueryError` exactly when the
capture name is unrecognised, or the capture requires a delimiter that is
absent, or it requires a scope id that is absent; every recognised capture
with its required arguments present succeeds. -/
theorem resolve_capture_error_iff (c : AtomCollection) (name : String)
    (n : Tree) (anc : List Tree) (d s : Option String) :
    (c.resolve_capture name n anc d s).2 ≠ none ↔
      (name ∉ recognisedNames ∨
       (name ∈ delimiterNames ∧ d = none) ∨
       (name ∈ scopeIdNames ∧ s = none)) := by
  unfold AtomCollection.resolve_capture
  split <;>
    (cases d <;> cases s <;>
      simp_all [recognisedNames, delimiterNames, scopeIdNames] <;>
      (try (split <;> rfl)))

/-- Concrete instances of the `resolve_capture` error contract:
`append_delimiter` without a delimiter errors, a bogus name errors, and
`append_space` succeeds. -/
theorem resolve_capture_error_examples :
    ((emptyCollection.resolve_capture ("append_space")
        (.node 0 ("") 0 0 []) [] none none).2 = none) ∧
    ((emptyCollection.resolve_capture ("append_delimiter")
        (.node 0 ("") 0 0 []) [] none none).2 ≠ none) ∧
    ((emptyCollection.resolve_capture ("bogus")
        (.node 0 ("") 0 0 []) [] (some ("x")) (some ("y"))).2 ≠ none) := by
  refine ⟨by decide, by decide, by decide⟩

/-! ### The no-adjacent-whitespace invariant of the normaliser loop -/

theorem okPair_of_left {a : Atom} (b : Atom) (ha : a.isWhitespace = false) :
    okPair a b := by
  unfold okPair; simp [ha]

theorem okPair_of_right (a : Atom) {b : Atom} (hb : b.isWhitespace = false) :
    okPair a b := by
  unfold okPair; simp [hb]

theorem not_ws_of_okPair_ws {q p : Atom} (h : okPair q p)
    (hp : p.isWhitespace = true) : q.isWhitespace = false := by
  unfold okPair at h
  simpa [hp] using h

/-- Pushing an atom compatible with the current last element preserves the
no-adjacent-whitespace chain. -/
theorem chain_push {l : List Atom} {x : Atom} (h : List.Chain' okPair l)
    (hx : ∀ p, l.getLast? = some p → okPair p x) :
    List.Chain' okPair (l ++ [x]) := by
  refine List.chain'_append.mpr ⟨h, List.chain'_singleton x, ?_⟩
  intro a ha y hy
  simp only [List.head?_cons, Option.mem_def, Option.some.injEq] at hy
  subst hy
  exact hx a ha

theorem chain_dropLast {l : List Atom} (h : List.Chain' okPair l) :
    List.Chain' okPair l.dropLast :=
  h.prefix (List.dropLast_prefix l)

/-- After a whitespace last element, any push onto the dropped-last list is
compatible, because the element before the whitespace cannot itself be
whitespace. -/
theorem chain_push_after_ws {l : List Atom} {prev : Atom}
    (h1 : List.Chain' okPair l)
    (hq : ∀ q, l.getLast? = some q → okPair q prev)
    (hp : prev.isWhitespace = true) (next : Atom) :
    List.Chain' okPair (l ++ [next]) :=
  chain_push h1 (fun q hql =>
    okPair_of_left next (not_ws_of_okPair_ws (hq q hql) hp))

/-- One normaliser step preserves the no-adjacent-whitespace chain. -/
theorem pp_internal_chain (acc : List Atom) (prev next : Atom)
    (hlast : acc.getLast? = some prev) (hch : List.Chain' okPair acc) :
    List.Chain' okPair (post_process_internal acc prev next) := by
  have hacc : acc.dropLast ++ [prev] = acc :=
    List.dropLast_append_getLast? prev hlast
  have hch' := hch
  rw [← hacc] at hch'
  obtain ⟨h1, -, h3⟩ := List.chain'_append.mp hch'
  have hq : ∀ q, acc.dropLast.getLast? = some q → okPair q prev := by
    intro q hql
    exact h3 q hql prev rfl
  have hs5 : ∀ m : Atom, m.isWhitespace = false → prev.isWhitespace = true →
      List.Chain' okPair (acc.dropLast ++ [m, prev]) := by
    intro m hm hp
    have : acc.dropLast ++ [m, prev] = (acc.dropLast ++ [m]) ++ [prev] := by
      simp
    rw [this]
    refine chain_push (chain_push_after_ws h1 hq hp m) ?_
    intro p hpl
    rw [List.getLast?_concat] at hpl
    cases hpl
    exact okPair_of_left prev hm
  cases prev <;> cases next <;>
    first
      | exact hch
      | exact chain_dropLast hch
      | exact chain_push_after_ws h1 hq rfl _
      | exact hs5 _ rfl rfl
      | (exact chain_push hch (fun p hpl => by
          rw [hlast] at hpl
          injection hpl with h
          subst h
          exact okPair_of_left _ rfl))
      | (exact chain_push hch (fun p hpl => by
          rw [hlast] at hpl
          injection hpl with h
          subst h
          exact okPair_of_right _ rfl))

/-- The normaliser loop preserves the no-adjacent-whitespace chain. -/
theorem loop_chain (rest : List Atom) :
    ∀ acc, List.Chain' okPair acc →
      List.Chain' okPair (post_process_loop acc rest) := by
  induction rest with
  | nil => intro acc h; exact h
  | cons next rest ih =>
    intro acc h
    cases hl : acc.getLast? with
    | some prev =>
      simp only [post_process_loop, hl]
      exact ih _ (pp_internal_chain acc prev next hl h)
    | none =>
      have hnil : acc = [] := by
        cases acc with
        | nil => rfl
        | cons a l => simp [List.getLast?_concat] at hl
      subst hnil
      cases next <;> simp only [post_process_loop] <;>
        exact ih _ (by simp [List.chain'_singleton])

/-- `ensure_final_hardline` keeps the chain on all but the final pair. -/
theorem ensure_chain {v : List Atom} (h : List.Chain' okPair v) :
    List.Chain' okPair (ensure_final_hardline v).dropLast := by
  unfold ensure_final_hardline
  cases hl : v.getLast? with
  | some a =>
    cases a <;> simp only <;>
      first
        | exact chain_dropLast h
        | (rw [List.dropLast_concat]; exact h)
  | none => rw [List.dropLast_concat]; exact h

/-- Counterexample for claim C1: on the input `[Leaf "a", Space]` the full
Whitespace Normaliser produces `[Leaf "a", Space, Hardline]`, in which the
final ensure-hardline step has created the adjacent whitespace pair
`(Space, Hardline)`. -/
theorem post_process_adjacent_ws_cx :
    ¬ List.Chain' okPair
      (({ emptyCollection with atoms := [.Leaf ("a") 0, .Space] }
        : AtomCollection).post_process).atoms := by
  intro h
  have hat :
      (({ emptyCollection with atoms := [.Leaf ("a") 0, .Space] }
        : AtomCollection).post_process).atoms =
      [.Leaf ("a") 0, .Space, .Hardline] := by decide
  rw [hat] at h
  simp [List.chain'_cons, okPair, Atom.isWhitespace] at h

/-- Claim C1 (amended): after the Whitespace Normaliser, no adjacent pair of
atoms is drawn from `{Space, Hardline, Blankline}` at any position except
possibly the final pair, which the ensure-hardline step may create by
appending a `Hardline` after a surviving trailing `Space` or `Blankline`
(formally: the sequence with its last atom removed has no adjacent
whitespace pair). -/
theorem post_process_no_adjacent_ws (c : AtomCollection) :
    List.Chain' okPair ((c.post_process).atoms.dropLast) := by
  unfold AtomCollection.post_process
  exact ensure_chain (loop_chain _ [] List.chain'_nil)

/-! ### Association-list lemmas -/

theorem mapLookup_mem {α β : Type} [DecidableEq α] {m : List (α × β)}
    {k : α} {v : β} (h : mapLookup m k = some v) : (k, v) ∈ m := by
  induction m with
  | nil => simp [mapLookup] at h
  | cons p rest ih =>
    obtain ⟨k', v'⟩ := p
    unfold mapLookup at h
    by_cases hk : k' = k
    · rw [if_pos hk] at h
      injection h with h
      subst hk; subst h
      exact List.mem_cons_self _ _
    · rw [if_neg hk] at h
      exact List.mem_cons_of_mem _ (ih h)

theorem mem_mapUpdate {α β : Type} [DecidableEq α] {m : List (α × β)}
    {k : α} {d : β} {f : β → β} {p : α × β} (h : p ∈ mapUpdate m k d f) :
    p ∈ m ∨ p.2 = f d ∨ ∃ v, (k, v) ∈ m ∧ p.2 = f v := by
  induction m with
  | nil =>
    unfold mapUpdate at h
    simp only [List.mem_singleton] at h
    exact Or.inr (Or.inl (by rw [h]))
  | cons q rest ih =>
    obtain ⟨k', v'⟩ := q
    unfold mapUpdate at h
    by_cases hk : k' = k
    · subst hk
      rw [if_pos rfl] at h
      rcases List.mem_cons.mp h with h | h
      · exact Or.inr (Or.inr ⟨v', List.mem_cons_self _ _, by rw [h]⟩)
      · exact Or.inl (List.mem_cons_of_mem _ h)
    · rw [if_neg hk] at h
      rcases List.mem_cons.mp h with h | h
      · exact Or.inl (by rw [h]; exact List.mem_cons_self _ _)
      · rcases ih h with h' | h' | ⟨v, hv, hp⟩
        · exact Or.inl (List.mem_cons_of_mem _ h')
        · exact Or.inr (Or.inl h')
        · exact Or.inr (Or.inr ⟨v, List.mem_cons_of_mem _ hv, hp⟩)

theorem mapUpdate_mem_of_ne {α β : Type} [DecidableEq α] {m : List (α × β)}
    {k : α} {d : β} {f : β → β} {p : α × β} (h : p ∈ m) (hne : p.1 ≠ k) :
    p ∈ mapUpdate m k d f := by
  induction m with
  | nil => simp at h
  | cons q rest ih =>
    obtain ⟨k', v'⟩ := q
    unfold mapUpdate
    rcases List.mem_cons.mp h with h | h
    · subst h
      rw [if_neg hne]
      exact List.mem_cons_self _ _
    · by_cases hk : k' = k
      · subst hk
        rw [if_pos rfl]
        exact List.mem_cons_of_mem _ h
      · rw [if_neg hk]
        exact List.mem_cons_of_mem _ (ih h)

theorem mapUpdate_mem_lookup {α β : Type} [DecidableEq α]
    {m : List (α × β)} {k : α} {v : β} (d : β) (f : β → β)
    (h : mapLookup m k = some v) : (k, f v) ∈ mapUpdate m k d f := by
  induction m with
  | nil => simp [mapLookup] at h
  | cons q rest ih =>
    obtain ⟨k', v'⟩ := q
    unfold mapLookup at h
    unfold mapUpdate
    by_cases hk : k' = k
    · rw [if_pos hk] at h
      injection h with h
      subst hk; subst h
      rw [if_pos rfl]
      exact List.mem_cons_self _ _
    · rw [if_neg hk] at h
      rw [if_neg hk]
      exact List.mem_cons_of_mem _ (ih h)

theorem keys_mapUpdate_sub {α β : Type} [DecidableEq α] {m : List (α × β)}
    {k : α} {d : β} {f : β → β} {x : α}
    (h : x ∈ (mapUpdate m k d f).map Prod.fst) :
    x ∈ m.map Prod.fst ∨ x = k := by
  induction m with
  | nil =>
    unfold mapUpdate at h
    simp at h
    exact Or.inr h
  | cons q rest ih =>
    obtain ⟨k', v'⟩ := q
    unfold mapUpdate at h
    by_cases hk : k' = k
    · subst hk
      rw [if_pos rfl, List.map_cons] at h
      rcases List.mem_cons.mp h with h | h
      · exact Or.inr h
      · exact Or.inl (by rw [List.map_cons]; exact List.mem_cons_of_mem _ h)
    · rw [if_neg hk, List.map_cons] at h
      rcases List.mem_cons.mp h with h | h
      · exact Or.inl (by rw [List.map_cons, h]; exact List.mem_cons_self _ _)
      · rcases ih h with h' | h'
        · exact Or.inl (by rw [List.map_cons]; exact List.mem_cons_of_mem _ h')
        · exact Or.inr h'

theorem nodup_mapUpdate {α β : Type} [DecidableEq α] {m : List (α × β)}
    {k : α} {d : β} {f : β → β} (h : (m.map Prod.fst).Nodup) :
    ((mapUpdate m k d f).map Prod.fst).Nodup := by
  induction m with
  | nil => simp [mapUpdate]
  | cons q rest ih =>
    obtain ⟨k', v'⟩ := q
    simp only [List.map_cons, List.nodup_cons] at h
    obtain ⟨hk', hrest⟩ := h
    unfold mapUpdate
    by_cases hk : k' = k
    · subst hk
      rw [if_pos rfl]
      simp only [List.map_cons, List.nodup_cons]
      exact ⟨hk', hrest⟩
    · rw [if_neg hk]
      simp only [List.map_cons, List.nodup_cons]
      refine ⟨?_, ih hrest⟩
      intro hx
      rcases keys_mapUpdate_sub hx with h' | h'
      · exact hk' h'
      · exact hk h'

theorem lookup_eq_of_mem_nodup {α β : Type} [DecidableEq α]
    {m : List (α × β)} {k : α} {v : β} (hn : (m.map Prod.fst).Nodup)
    (h : (k, v) ∈ m) : mapLookup m k = some v := by
  induction m with
  | nil => simp at h
  | cons q rest ih =>
    obtain ⟨k', v'⟩ := q
    simp only [List.map_cons, List.nodup_cons] at hn
    obtain ⟨hk', hrest⟩ := hn
    unfold mapLookup
    rcases List.mem_cons.mp h with h | h
    · injection h with h1 h2
      subst h1; subst h2
      rw [if_pos rfl]
    · by_cases hk : k' = k
      · subst hk
        exact absurd (by simpa using List.mem_map_of_mem Prod.fst h) hk'
      · rw [if_neg hk]
        exact ih hrest h

theorem mem_mapInsert {α β : Type} [DecidableEq α] {m : List (α × β)}
    {k : α} {v : β} {q : α × β} (h : q ∈ mapInsert m k v) :
    q ∈ m ∨ q.2 = v := by
  induction m with
  | nil =>
    unfold mapInsert at h
    simp only [List.mem_singleton] at h
    exact Or.inr (by rw [h])
  | cons p rest ih =>
    obtain ⟨k', v'⟩ := p
    unfold mapInsert at h
    by_cases hk : k' = k
    · subst hk
      rw [if_pos rfl] at h
      rcases List.mem_cons.mp h with h | h
      · exact Or.inr (by rw [h])
      · exact Or.inl (List.mem_cons_of_mem _ h)
    · rw [if_neg hk] at h
      rcases List.mem_cons.mp h with h | h
      · exact Or.inl (by rw [h]; exact List.mem_cons_self _ _)
      · rcases ih h with h' | h'
        · exact Or.inl (List.mem_cons_of_mem _ h')
        · exact Or.inr h'

theorem mapInsert_ne_nil {α β : Type} [DecidableEq α] (m : List (α × β))
    (k : α) (v : β) : mapInsert m k v ≠ [] := by
  cases m with
  | nil => simp [mapInsert]
  | cons p rest =>
    obtain ⟨k', v'⟩ := p
    unfold mapInsert
    split <;> simp

theorem mapRemove_fst_mem {α β : Type} [DecidableEq α] {m : List (α × β)}
    {k : α} {v : β} (h : (mapRemove m k).1 = some v) : (k, v) ∈ m := by
  induction m with
  | nil => simp [mapRemove] at h
  | cons p rest ih =>
    obtain ⟨k', v'⟩ := p
    unfold mapRemove at h
    by_cases hk : k' = k
    · rw [if_pos hk] at h
      injection h with h
      subst hk; subst h
      exact List.mem_cons_self _ _
    · rw [if_neg hk] at h
      exact List.mem_cons_of_mem _ (ih h)

theorem mapRemove_snd_sub {α β : Type} [DecidableEq α] {m : List (α × β)}
    {k : α} {q : α × β} (h : q ∈ (mapRemove m k).2) : q ∈ m := by
  induction m with
  | nil => simp [mapRemove] at h
  | cons p rest ih =>
    obtain ⟨k', v'⟩ := p
    unfold mapRemove at h
    by_cases hk : k' = k
    · subst hk
      rw [if_pos rfl] at h
      exact List.mem_cons_of_mem _ h
    · rw [if_neg hk] at h
      rcases List.mem_cons.mp h with h | h
      · subst h
        exact List.mem_cons_self _ _
      · exact List.mem_cons_of_mem _ (ih h)

/-! ### Scope-resolver invariants -/

theorem recordMods_good {mods : List (Nat × Option Atom)} {ls le : Nat}
    (l : List Atom) (h : modsValuesGood mods) :
    modsValuesGood (recordMods mods ls le l) := by
  induction l generalizing mods with
  | nil => exact h
  | cons a rest ih =>
    cases a <;> try exact ih h
    case ScopedSoftline id sid spaced =>
      refine ih ?_
      intro q hq
      rcases mem_mapInsert hq with h' | h'
      · exact h q h'
      · rw [h']
        by_cases hls : ls ≠ le
        · rw [if_pos hls]; exact Or.inl rfl
        · rw [if_neg hls]
          cases spaced <;> simp

theorem recordMods_ne_nil_of_ne {mods : List (Nat × Option Atom)}
    {ls le : Nat} (l : List Atom) (h : mods ≠ []) :
    recordMods mods ls le l ≠ [] := by
  induction l generalizing mods with
  | nil => exact h
  | cons a rest ih =>
    cases a <;> try exact ih h
    case ScopedSoftline id sid spaced =>
      exact ih (mapInsert_ne_nil _ _ _)

theorem recordMods_ne_nil_of_scoped {mods : List (Nat × Option Atom)}
    {ls le : Nat} {l : List Atom} (h : ∃ a ∈ l, a.isScoped = true) :
    recordMods mods ls le l ≠ [] := by
  induction l generalizing mods with
  | nil => obtain ⟨a, ha, -⟩ := h; simp at ha
  | cons a rest ih =>
    obtain ⟨b, hb, hs⟩ := h
    cases a with
    | ScopedSoftline id sid spaced =>
      exact recordMods_ne_nil_of_ne rest (mapInsert_ne_nil _ _ _)
    | _ =>
      rcases List.mem_cons.mp hb with h' | h'
      · subst h'; simp [Atom.isScoped] at hs
      · exact ih ⟨b, h', hs⟩

theorem openOne_nodup {o : List (String × List ScopeFrame)} {ls : Nat}
    {sid : String} (h : openedNodup o) : openedNodup (openOne ls o sid) :=
  nodup_mapUpdate h

theorem openOne_scopedOnly {o : List (String × List ScopeFrame)} {ls : Nat}
    {sid : String} (h : openedScopedOnly o) :
    openedScopedOnly (openOne ls o sid) := by
  intro p hp f hf a ha
  rcases mem_mapUpdate hp with h' | h' | ⟨v, hv, h'⟩
  · exact h p h' f hf a ha
  · rw [h'] at hf
    rcases List.mem_cons.mp hf with h'' | h''
    · subst h''; simp at ha
    · simp at h''
  · rw [h'] at hf
    rcases List.mem_cons.mp hf with h'' | h''
    · subst h''; simp at ha
    · exact h (sid, v) hv f h'' a ha

theorem openOne_witness {o : List (String × List ScopeFrame)} {ls : Nat}
    {sid : String} (hn : openedNodup o) (h : openedWitness o) :
    openedWitness (openOne ls o sid) := by
  obtain ⟨p, hp, f, hf, hne⟩ := h
  by_cases hps : p.1 = sid
  · have hl : mapLookup o sid = some p.2 := by
      rw [← hps]
      exact lookup_eq_of_mem_nodup hn (by rw [← hps] at hps ⊢; exact hp)
    refine ⟨(sid, ⟨ls, []⟩ :: p.2),
      mapUpdate_mem_lookup [] (fun stk => ⟨ls, []⟩ :: stk) hl,
      f, List.mem_cons_of_mem _ hf, hne⟩
  · exact ⟨p, mapUpdate_mem_of_ne hp hps, f, hf, hne⟩

theorem openAll_nodup {ls : Nat} (sids : List String) :
    ∀ o, openedNodup o → openedNodup (sids.foldl (openOne ls) o) := by
  induction sids with
  | nil => intro o h; exact h
  | cons s rest ih => intro o h; exact ih _ (openOne_nodup h)

theorem openAll_scopedOnly {ls : Nat} (sids : List String) :
    ∀ o, openedScopedOnly o →
      openedScopedOnly (sids.foldl (openOne ls) o) := by
  induction sids with
  | nil => intro o h; exact h
  | cons s rest ih => intro o h; exact ih _ (openOne_scopedOnly h)

theorem openAll_witness {ls : Nat} (sids : List String) :
    ∀ o, openedNodup o → openedWitness o →
      openedWitness (sids.foldl (openOne ls) o) := by
  induction sids with
  | nil => intro o _ h; exact h
  | cons s rest ih =>
    intro o hn h
    exact ih _ (openOne_nodup hn) (openOne_witness hn h)

theorem closeOne_inv {st : ScopeState} {le : Nat} {sid : String}
    (h : scopeInv st) : scopeInv (closeOne le st sid) := by
  obtain ⟨hn, hs, hm⟩ := h
  unfold closeOne
  cases hl : mapLookup st.opened sid with
  | none => exact ⟨hn, hs, hm⟩
  | some stk =>
    cases stk with
    | nil => exact ⟨hn, hs, hm⟩
    | cons frame rest =>
      refine ⟨nodup_mapUpdate hn, ?_, recordMods_good _ hm⟩
      intro p hp f hf a ha
      rcases mem_mapUpdate hp with h' | h' | ⟨v, hv, h'⟩
      · exact hs p h' f hf a ha
      · rw [h'] at hf
        exact hs (sid, frame :: rest) (mapLookup_mem hl) f
          (List.mem_cons_of_mem _ hf) a ha
      · rw [h'] at hf
        exact hs (sid, frame :: rest) (mapLookup_mem hl) f
          (List.mem_cons_of_mem _ hf) a ha

theorem closeOne_tracked {st : ScopeState} {le : Nat} {sid : String}
    (hinv : scopeInv st) (h : scopeTracked st) :
    scopeTracked (closeOne le st sid) := by
  obtain ⟨hn, hs, hm⟩ := hinv
  unfold closeOne
  cases hl : mapLookup st.opened sid with
  | none => exact Or.inl rfl
  | some stk =>
    cases stk with
    | nil => exact Or.inl rfl
    | cons frame rest =>
      rcases h with hf | hmne | ⟨p, hp, f, hfp, hne⟩
      · exact Or.inl hf
      · exact Or.inr (Or.inl (recordMods_ne_nil_of_ne _ hmne))
      · by_cases hps : p.1 = sid
        · have hp' : (p.1, p.2) ∈ st.opened := by rw [Prod.mk.eta]; exact hp
          rw [hps] at hp'
          have hl2 : mapLookup st.opened sid = some p.2 :=
            lookup_eq_of_mem_nodup hn hp'
          rw [hl] at hl2
          injection hl2 with hl2
          have hfp' : f ∈ frame :: rest := by rw [hl2]; exact hfp
          rcases List.mem_cons.mp hfp' with hfe | hfr
          · have hpend : frame.pending ≠ [] := by rw [← hfe]; exact hne
            obtain ⟨a, ha⟩ := List.exists_mem_of_ne_nil _ hpend
            have hsc := hs p hp f hfp a (by rw [hfe]; exact ha)
            exact Or.inr (Or.inl (recordMods_ne_nil_of_scoped ⟨a, ha, hsc⟩))
          · exact Or.inr (Or.inr ⟨(sid, rest),
              mapUpdate_mem_lookup [] (fun _ => rest) hl, f, hfr, hne⟩)
        · exact Or.inr (Or.inr ⟨p, mapUpdate_mem_of_ne hp hps, f, hfp, hne⟩)

theorem closeAll_inv (le : Nat) (sids : List String) :
    ∀ st, scopeInv st → scopeInv (sids.foldl (closeOne le) st) := by
  induction sids with
  | nil => intro st h; exact h
  | cons s rest ih => intro st h; exact ih _ (closeOne_inv h)

theorem closeAll_tracked (le : Nat) (sids : List String) :
    ∀ st, scopeInv st → scopeTracked st →
      scopeTracked (sids.foldl (closeOne le) st) := by
  induction sids with
  | nil => intro st _ h; exact h
  | cons s rest ih =>
    intro st hinv h
    exact ih _ (closeOne_inv hinv) (closeOne_tracked hinv h)

theorem attachScoped_inv {st : ScopeState} {a : Atom} {sid : String}
    (h : scopeInv st) (hsc : a.isScoped = true) :
    scopeInv (attachScoped st a sid) := by
  obtain ⟨hn, hs, hm⟩ := h
  unfold attachScoped
  cases hl : mapLookup st.opened sid with
  | none => exact ⟨hn, hs, hm⟩
  | some stk =>
    cases stk with
    | nil => exact ⟨hn, hs, hm⟩
    | cons frame rest =>
      refine ⟨nodup_mapUpdate hn, ?_, hm⟩
      intro p hp f hf b hb
      have hval : ∀ hf' : f ∈ { frame with pending := frame.pending ++ [a] } :: rest,
          b.isScoped = true := by
        intro hf'
        rcases List.mem_cons.mp hf' with h'' | h''
        · rw [h''] at hb
          rcases List.mem_append.mp hb with hb' | hb'
          · exact hs (sid, frame :: rest) (mapLookup_mem hl) frame
              (List.mem_cons_self _ _) b hb'
          · rw [List.mem_singleton.mp hb']
            exact hsc
        · exact hs (sid, frame :: rest) (mapLookup_mem hl) f
            (List.mem_cons_of_mem _ h'') b hb
      rcases mem_mapUpdate hp with h' | h' | ⟨v, hv, h'⟩
      · exact hs p h' f hf b hb
      · exact hval (by rw [← h']; exact hf)
      · exact hval (by rw [← h']; exact hf)

theorem attachScoped_tracked (st : ScopeState) (a : Atom) (sid : String) :
    scopeTracked (attachScoped st a sid) := by
  unfold attachScoped
  cases hl : mapLookup st.opened sid with
  | none => exact Or.inl rfl
  | some stk =>
    cases stk with
    | nil => exact Or.inl rfl
    | cons frame rest =>
      exact Or.inr (Or.inr
        ⟨(sid, { frame with pending := frame.pending ++ [a] } :: rest),
          mapUpdate_mem_lookup [] _ hl,
          { frame with pending := frame.pending ++ [a] },
          List.mem_cons_self _ _, by simp⟩)

theorem scope_step_inv {sb se : List (Nat × (Nat × List String))}
    {st : ScopeState} {a : Atom} (h : scopeInv st) :
    scopeInv (scope_step sb se st a) := by
  cases a
  case Leaf tx id =>
    unfold scope_step
    dsimp only
    cases hb : mapLookup sb id with
    | some p =>
      obtain ⟨ls, sids⟩ := p
      cases he : mapLookup se id with
      | some q =>
        obtain ⟨le, sids2⟩ := q
        exact closeAll_inv _ _ _
          ⟨openAll_nodup _ _ h.1, openAll_scopedOnly _ _ h.2.1, h.2.2⟩
      | none =>
        exact ⟨openAll_nodup _ _ h.1, openAll_scopedOnly _ _ h.2.1, h.2.2⟩
    | none =>
      cases he : mapLookup se id with
      | some q =>
        obtain ⟨le, sids2⟩ := q
        exact closeAll_inv _ _ _ h
      | none => exact h
  case ScopedSoftline id sid spaced => exact attachScoped_inv h rfl
  all_goals exact h

theorem scope_step_tracked {sb se : List (Nat × (Nat × List String))}
    {st : ScopeState} {a : Atom} (hinv : scopeInv st)
    (h : scopeTracked st) : scopeTracked (scope_step sb se st a) := by
  cases a
  case Leaf tx id =>
    unfold scope_step
    dsimp only
    cases hb : mapLookup sb id with
    | some p =>
      obtain ⟨ls, sids⟩ := p
      have h1 : scopeTracked
          { st with opened := sids.foldl (openOne ls) st.opened } := by
        rcases h with hf | hm | hw
        · exact Or.inl hf
        · exact Or.inr (Or.inl hm)
        · exact Or.inr (Or.inr (openAll_witness _ _ hinv.1 hw))
      have h1inv : scopeInv
          { st with opened := sids.foldl (openOne ls) st.opened } :=
        ⟨openAll_nodup _ _ hinv.1, openAll_scopedOnly _ _ hinv.2.1, hinv.2.2⟩
      cases he : mapLookup se id with
      | some q =>
        obtain ⟨le, sids2⟩ := q
        exact closeAll_tracked _ _ _ h1inv h1
      | none => exact h1
    | none =>
      cases he : mapLookup se id with
      | some q =>
        obtain ⟨le, sids2⟩ := q
        exact closeAll_tracked _ _ _ hinv h
      | none => exact h
  case ScopedSoftline id sid spaced => exact attachScoped_tracked _ _ _
  all_goals exact h

theorem scope_step_est {sb se : List (Nat × (Nat × List String))}
    {st : ScopeState} {a : Atom} (hsc : a.isScoped = true) :
    scopeTracked (scope_step sb se st a) := by
  cases a <;> simp [Atom.isScoped] at hsc
  exact attachScoped_tracked _ _ _

theorem scope_fold_inv (sb se : List (Nat × (Nat × List String)))
    (l : List Atom) :
    ∀ st, scopeInv st → scopeInv (l.foldl (scope_step sb se) st) := by
  induction l with
  | nil => intro st h; exact h
  | cons a rest ih => intro st h; exact ih _ (scope_step_inv h)

theorem scope_fold_tracked (sb se : List (Nat × (Nat × List String)))
    (l : List Atom) :
    ∀ st, scopeInv st → scopeTracked st →
      scopeTracked (l.foldl (scope_step sb se) st) := by
  induction l with
  | nil => intro st _ h; exact h
  | cons a rest ih =>
    intro st hinv h
    exact ih _ (scope_step_inv hinv) (scope_step_tracked hinv h)

theorem scope_fold_scoped (sb se : List (Nat × (Nat × List String)))
    (l : List Atom) :
    ∀ st, scopeInv st → (∃ a ∈ l, a.isScoped = true) →
      scopeTracked (l.foldl (scope_step sb se) st) := by
  induction l with
  | nil => intro st _ h; obtain ⟨a, ha, -⟩ := h; simp at ha
  | cons a rest ih =>
    intro st hinv h
    obtain ⟨b, hb, hsc⟩ := h
    rcases List.mem_cons.mp hb with h' | h'
    · subst h'
      exact scope_fold_tracked sb se rest _ (scope_step_inv hinv)
        (scope_step_est hsc)
    · exact ih _ (scope_step_inv hinv) ⟨b, h', hsc⟩

theorem applyMods_noScoped (l : List Atom) :
    ∀ mods, modsValuesGood mods →
      noScopedSoftline (applyMods mods l) = true := by
  induction l with
  | nil => intro mods _; rfl
  | cons a rest ih =>
    intro mods hm
    cases a
    case ScopedSoftline id sid spaced =>
      show noScopedSoftline
        (match mapRemove mods id with
          | (some o, mods') => o.toList ++ applyMods mods' rest
          | (none, mods') => applyMods mods' rest) = true
      rcases hmr : mapRemove mods id with ⟨fst, snd⟩
      have hsnd : modsValuesGood snd := by
        intro q hq
        exact hm q (mapRemove_snd_sub (by rw [hmr]; exact hq))
      cases fst with
      | none => exact ih snd hsnd
      | some o =>
        have ho : o = some Atom.Hardline ∨ o = some Atom.Space ∨ o = none :=
          hm (id, o) (mapRemove_fst_mem (by rw [hmr]))
        have htl : (o.toList).all (fun x => !x.isScoped) = true := by
          rcases ho with h' | h' | h' <;> subst h' <;> rfl
        show noScopedSoftline (o.toList ++ applyMods snd rest) = true
        unfold noScopedSoftline
        rw [List.all_append, htl]
        have hih := ih snd hsnd
        unfold noScopedSoftline at hih
        rw [hih]
        rfl
    all_goals
      (show noScopedSoftline (_ :: applyMods mods rest) = true
       unfold noScopedSoftline
       rw [List.all_cons]
       have hih := ih mods hm
       unfold noScopedSoftline at hih
       rw [hih]
       rfl)

/-- A tracked state makes the apply-modifications condition of
`post_process_scopes` true. -/
theorem tracked_condition {st : ScopeState} (h : scopeTracked st) :
    (!st.mods.isEmpty ||
      (st.force_apply || st.opened.any fun p => !p.2.isEmpty)) = true := by
  rcases h with hf | hm | ⟨p, hp, f, hfp, -⟩
  · rw [hf]; simp
  · have h0 : st.mods.isEmpty = false := by
      cases hmm : st.mods with
      | nil => exact absurd hmm hm
      | cons x xs => rfl
    rw [h0]; simp
  · have hany : (st.opened.any fun p => !p.2.isEmpty) = true := by
      refine List.any_eq_true.mpr ⟨p, hp, ?_⟩
      cases hp2 : p.2 with
      | nil => rw [hp2] at hfp; simp at hfp
      | cons x xs => rfl
    rw [hany]; simp

/-- Shared core of the scope-resolver invariant: after
`post_process_scopes`, no `ScopedSoftline` atom remains.  Whenever the
input holds a scoped softline, pass 1 either records a modification,
attaches it to a frame that is still open at the end, or sets the
force-apply flag, so pass 2 runs and removes every scoped softline. -/
theorem post_process_scopes_noScoped_aux (c : AtomCollection) :
    noScopedSoftline (c.post_process_scopes).atoms = true := by
  have h0 : scopeInv (⟨[], [], false⟩ : ScopeState) :=
    ⟨List.nodup_nil, fun p hp => absurd hp (List.not_mem_nil p),
      fun q hq => absurd hq (List.not_mem_nil q)⟩
  have hinv : scopeInv
      (c.atoms.foldl (scope_step c.scope_begin c.scope_end) ⟨[], [], false⟩) :=
    scope_fold_inv c.scope_begin c.scope_end c.atoms ⟨[], [], false⟩ h0
  unfold AtomCollection.post_process_scopes
  dsimp only
  split
  · exact applyMods_noScoped c.atoms _ hinv.2.2
  · rename_i hcond
    by_contra hc
    have hex : ∃ a ∈ c.atoms, a.isScoped = true := by
      unfold noScopedSoftline at hc
      rcases List.all_eq_false.mp (Bool.eq_false_iff.mpr hc) with ⟨a, ha, hne⟩
      exact ⟨a, ha, by simpa using hne⟩
    have htr := scope_fold_scoped c.scope_begin c.scope_end c.atoms
      ⟨[], [], false⟩ h0 hex
    exact hcond (tracked_condition htr)

/-- Claim C4: for every atom sequence and every scope configuration —
including anomalous ones — the Scope Resolver leaves no `ScopedSoftline`
atom in `atoms`: each one is replaced by its recorded modification or
dropped, anomalies having set the force-apply flag so the rewrite pass
always runs when a scoped softline is present. -/
theorem scope_resolver_removes_scoped_softlines (c : AtomCollection) :
    noScopedSoftline (c.post_process_scopes).atoms = true :=
  post_process_scopes_noScoped_aux c

/-! ### Ephemeral-atom elimination by the Whitespace Normaliser -/

theorem noEph_push {l : List Atom} {x : Atom} (h : noEphemeral l = true)
    (hx : x.isEphemeral = false) : noEphemeral (l ++ [x]) = true := by
  unfold noEphemeral at h ⊢
  rw [List.all_append, h, List.all_cons, hx]
  rfl

theorem pp_internal_noEph {acc : List Atom} {prev next : Atom}
    (hl : acc.getLast? = some prev) (hacc : noEphemeral acc = true)
    (hn : next.isEphemeral = false) :
    noEphemeral (post_process_internal acc prev next) = true := by
  have hprevm : prev ∈ acc := List.mem_of_mem_getLast? hl
  have hprev : prev.isEphemeral = false := by
    have h := List.all_eq_true.mp hacc prev hprevm
    simpa using h
  have hdl : noEphemeral acc.dropLast = true := by
    refine List.all_eq_true.mpr ?_
    intro a ha
    exact List.all_eq_true.mp hacc a (List.mem_of_mem_dropLast ha)
  have hpush2 : noEphemeral (acc.dropLast ++ [next, prev]) = true := by
    have : acc.dropLast ++ [next, prev] = (acc.dropLast ++ [next]) ++ [prev] := by
      simp
    rw [this]
    exact noEph_push (noEph_push hdl hn) hprev
  cases prev <;> cases next <;>
    first
      | exact absurd hprev.symm Bool.false_ne_true
      | exact absurd hn.symm Bool.false_ne_true
      | exact hacc
      | exact hdl
      | exact noEph_push hacc hn
      | exact noEph_push hdl hn
      | exact hpush2

theorem ensure_noEph {v : List Atom} (h : noEphemeral v = true) :
    noEphemeral (ensure_final_hardline v) = true := by
  unfold ensure_final_hardline
  cases hl : v.getLast? with
  | some a =>
    cases a <;> simp_all [noEphemeral, List.all_append, Atom.isEphemeral]
  | none => simp_all [noEphemeral, List.all_append, Atom.isEphemeral]

/-- The central invariant of the normaliser loop: outside a delete region
the accumulator holds no ephemeral atom and the remaining input is
well-deleted; inside one, the accumulator is a clean prefix followed by the
pending `DeleteBegin` and the remaining input closes the region first. -/
theorem loop_noEph (rest : List Atom) :
    ∀ acc,
      (∀ a ∈ rest, a.isSoftOrMultilineOnly = false ∧ a.isScoped = false) →
      ((noEphemeral acc = true ∧ wellDeleted rest = true) ∨
       (∃ acc', acc = acc' ++ [Atom.DeleteBegin] ∧ noEphemeral acc' = true ∧
         inDelete rest = true)) →
      noEphemeral (post_process_loop acc rest) = true := by
  induction rest with
  | nil =>
    intro acc _ hmode
    rcases hmode with ⟨hacc, -⟩ | ⟨acc', heq, hacc', hin⟩
    · exact hacc
    · exact absurd hin Bool.false_ne_true
  | cons next rest' ih =>
    intro acc hall hmode
    have hnext := hall next (List.mem_cons_self _ _)
    have hall' : ∀ a ∈ rest',
        a.isSoftOrMultilineOnly = false ∧ a.isScoped = false :=
      fun a ha => hall a (List.mem_cons_of_mem _ ha)
    rcases hmode with ⟨hacc, hwd⟩ | ⟨acc', heq, hacc', hin⟩
    · cases hl : acc.getLast? with
      | none =>
        have hnil : acc = [] := by
          cases acc with
          | nil => rfl
          | cons a l => simp [List.getLast?_concat] at hl
        subst hnil
        cases next <;>
          first
            | exact absurd hnext.1.symm Bool.false_ne_true
            | exact absurd hnext.2.symm Bool.false_ne_true
            | exact absurd hwd Bool.false_ne_true
            | exact ih [Atom.DeleteBegin] hall' (Or.inr ⟨[], rfl, rfl, hwd⟩)
            | exact ih [] hall' (Or.inl ⟨rfl, hwd⟩)
            | (refine ih _ hall' (Or.inl ⟨?_, ?_⟩) <;>
                first
                  | rfl
                  | exact hwd)
      | some prev =>
        have hprev : prev.isEphemeral = false := by
          have h := List.all_eq_true.mp hacc prev (List.mem_of_mem_getLast? hl)
          simpa using h
        simp only [post_process_loop, hl]
        cases prev <;> cases next <;>
          first
            | exact absurd hprev.symm Bool.false_ne_true
            | exact absurd hnext.1.symm Bool.false_ne_true
            | exact absurd hnext.2.symm Bool.false_ne_true
            | exact absurd hwd Bool.false_ne_true
            | exact ih _ hall' (Or.inr ⟨acc, rfl, hacc, hwd⟩)
            | (refine ih _ hall' (Or.inl ⟨?_, ?_⟩) <;>
                first
                  | exact pp_internal_noEph hl hacc rfl
                  | exact hwd)
    · subst heq
      simp only [post_process_loop, List.getLast?_concat]
      cases next <;>
        first
          | exact absurd hin Bool.false_ne_true
          | (refine ih _ hall' (Or.inl ⟨?_, ?_⟩) <;>
              first
                | (show noEphemeral ((acc' ++ [Atom.DeleteBegin]).dropLast)
                      = true
                   rw [List.dropLast_concat]
                   exact hacc')
                | exact hin)
          | exact ih _ hall' (Or.inr ⟨acc', rfl, hacc', hin⟩)

/-- The scope-resolver pass preserves the absence of `Softline` and
`MultilineOnlyLiteral` atoms and the shape of the delete markers: its
replacement atoms are only `Hardline` and `Space`. -/
theorem applyMods_wellDeleted (l : List Atom) :
    ∀ mods, modsValuesGood mods →
      (wellDeleted (applyMods mods l) = wellDeleted l ∧
       inDelete (applyMods mods l) = inDelete l) := by
  induction l with
  | nil => intro mods _; exact ⟨rfl, rfl⟩
  | cons a rest ih =>
    intro mods hm
    cases a
    case ScopedSoftline id sid spaced =>
      show wellDeleted
          (match mapRemove mods id with
            | (some o, mods') => o.toList ++ applyMods mods' rest
            | (none, mods') => applyMods mods' rest) =
          wellDeleted (Atom.ScopedSoftline id sid spaced :: rest) ∧
        inDelete
          (match mapRemove mods id with
            | (some o, mods') => o.toList ++ applyMods mods' rest
            | (none, mods') => applyMods mods' rest) =
          inDelete (Atom.ScopedSoftline id sid spaced :: rest)
      rcases hmr : mapRemove mods id with ⟨fst, snd⟩
      have hsnd : modsValuesGood snd := by
        intro q hq
        exact hm q (mapRemove_snd_sub (by rw [hmr]; exact hq))
      cases fst with
      | none => exact ⟨(ih snd hsnd).1, (ih snd hsnd).2⟩
      | some o =>
        have ho : o = some Atom.Hardline ∨ o = some Atom.Space ∨ o = none :=
          hm (id, o) (mapRemove_fst_mem (by rw [hmr]))
        rcases ho with h' | h' | h' <;> subst h' <;>
          exact ⟨(ih snd hsnd).1, (ih snd hsnd).2⟩
    case DeleteBegin => exact ⟨(ih mods hm).2, rfl⟩
    case DeleteEnd => exact ⟨rfl, (ih mods hm).1⟩
    all_goals exact ⟨(ih mods hm).1, (ih mods hm).2⟩

theorem applyMods_noSoftMOL (l : List Atom) :
    ∀ mods, modsValuesGood mods → noSoftOrMultilineOnly l = true →
      noSoftOrMultilineOnly (applyMods mods l) = true := by
  induction l with
  | nil => intro mods _ _; rfl
  | cons a rest ih =>
    intro mods hm hns
    have hcons : a.isSoftOrMultilineOnly = false ∧
        noSoftOrMultilineOnly rest = true := by
      unfold noSoftOrMultilineOnly at hns ⊢
      simp only [List.all_cons, Bool.and_eq_true] at hns
      exact ⟨by simpa using hns.1, hns.2⟩
    have hns' := hcons.2
    cases a
    case ScopedSoftline id sid spaced =>
      show noSoftOrMultilineOnly
          (match mapRemove mods id with
            | (some o, mods') => o.toList ++ applyMods mods' rest
            | (none, mods') => applyMods mods' rest) = true
      rcases hmr : mapRemove mods id with ⟨fst, snd⟩
      have hsnd : modsValuesGood snd := by
        intro q hq
        exact hm q (mapRemove_snd_sub (by rw [hmr]; exact hq))
      cases fst with
      | none => exact ih snd hsnd hns'
      | some o =>
        have ho : o = some Atom.Hardline ∨ o = some Atom.Space ∨ o = none :=
          hm (id, o) (mapRemove_fst_mem (by rw [hmr]))
        have hih := ih snd hsnd hns'
        rcases ho with h' | h' | h' <;> subst h' <;>
          (unfold noSoftOrMultilineOnly at hih ⊢
           rw [List.all_append, hih]
           rfl)
    case Softline spaced =>
      exact absurd hcons.1.symm Bool.false_ne_true
    case MultilineOnlyLiteral s =>
      exact absurd hcons.1.symm Bool.false_ne_true
    all_goals
      (have hih := ih mods hm hns'
       unfold noSoftOrMultilineOnly at hih ⊢
       show ((_ :: applyMods mods rest).all fun a =>
           !a.isSoftOrMultilineOnly) = true
       rw [List.all_cons, hih]
       rfl)

theorem post_process_scopes_preserves (c : AtomCollection) :
    (noSoftOrMultilineOnly c.atoms = true →
      noSoftOrMultilineOnly (c.post_process_scopes).atoms = true) ∧
    (wellDeleted c.atoms = true →
      wellDeleted (c.post_process_scopes).atoms = true) := by
  have hinv : scopeInv
      (c.atoms.foldl (scope_step c.scope_begin c.scope_end) ⟨[], [], false⟩) :=
    scope_fold_inv c.scope_begin c.scope_end c.atoms ⟨[], [], false⟩
      ⟨List.nodup_nil, fun p hp => absurd hp (List.not_mem_nil p),
        fun q hq => absurd hq (List.not_mem_nil q)⟩
  unfold AtomCollection.post_process_scopes
  dsimp only
  split
  · constructor
    · intro h
      exact applyMods_noSoftMOL c.atoms _ hinv.2.2 h
    · intro h
      rw [(applyMods_wellDeleted c.atoms _ hinv.2.2).1]
      exact h
  · exact ⟨fun h => h, fun h => h⟩

/-- Counterexample for claim C2: two nested delete regions — as produced by
two `delete` captures on the same node — leave a `DeleteEnd` in the output
of the Whitespace Normaliser. -/
theorem normaliser_ephemeral_cx :
    noEphemeral
      (({ emptyCollection with
          atoms := [.DeleteBegin, .DeleteBegin, .Leaf ("x") 1,
                    .DeleteEnd, .DeleteEnd] } : AtomCollection).post_process).atoms
      = false := by
  decide

/-- Claim C2 (amended): for every atom sequence that contains no `Softline`
or `MultilineOnlyLiteral` atoms (as is the case throughout the real
pipeline, where `expand_multiline` eliminates both at resolution time) and
whose delete markers form properly matched, non-nested regions, the
sequence produced by the Whitespace Normaliser contains no `Softline`,
`ScopedSoftline`, `MultilineOnlyLiteral`, `DeleteBegin` or `DeleteEnd`
atoms.  (Absence of `ScopedSoftline` holds unconditionally.) -/
theorem normaliser_no_ephemeral (c : AtomCollection)
    (hsm : noSoftOrMultilineOnly c.atoms = true)
    (hwd : wellDeleted c.atoms = true) :
    noEphemeral (c.post_process).atoms = true := by
  have h1 := (post_process_scopes_preserves c).1 hsm
  have h2 := (post_process_scopes_preserves c).2 hwd
  have h3 := post_process_scopes_noScoped_aux c
  unfold AtomCollection.post_process
  apply ensure_noEph
  refine loop_noEph _ [] ?_ (Or.inl ⟨rfl, h2⟩)
  intro a ha
  constructor
  · have h := List.all_eq_true.mp h1 a ha
    simpa using h
  · have h := List.all_eq_true.mp h3 a ha
    simpa using h

/-- Witness for claim C2: a single properly matched delete region is fully
erased, leaving no ephemeral atoms. -/
theorem normaliser_no_ephemeral_witness :
    noSoftOrMultilineOnly
      ({ emptyCollection with
        atoms := [.DeleteBegin, .Space, .Leaf ("x") 1, .DeleteEnd] }
        : AtomCollection).atoms = true ∧
    wellDeleted
      ({ emptyCollection with
        atoms := [.DeleteBegin, .Space, .Leaf ("x") 1, .DeleteEnd] }
        : AtomCollection).atoms = true ∧
    noEphemeral
      (({ emptyCollection with
        atoms := [.DeleteBegin, .Space, .Leaf ("x") 1, .DeleteEnd] }
        : AtomCollection).post_process).atoms = true :=
  ⟨by decide, by decide,
    normaliser_no_ephemeral
      { emptyCollection with
        atoms := [.DeleteBegin, .Space, .Leaf ("x") 1, .DeleteEnd] }
      (by decide) (by decide)⟩

/-! ### Leaf re-homing and the collected leaf atoms -/

theorem first_leaf_children (n : Tree) : (first_leaf n).children = [] := by
  induction n using first_leaf.induct <;> first | rfl | assumption

theorem path_firstLeafChain (n : Tree) :
    ∀ (anc : List Tree) (t : Tree), Path t anc n →
      Path t (firstLeafChain n ++ anc) ( first_leaf n) := by
  induction n using first_leaf.induct with
  | case1 i tx s e => intro anc t h; exact h
  | case2 i tx s e c cs ih =>
    intro anc t h
    have hc : Path t (Tree.node i tx s e (c :: cs) :: anc) c :=
      Path.step h (List.mem_cons_self _ _)
    have hrec := ih (Tree.node i tx s e (c :: cs) :: anc) t hc
    rw [show firstLeafChain (Tree.node i tx s e (c :: cs)) =
        firstLeafChain c ++ [Tree.node i tx s e (c :: cs)] from rfl,
      List.append_assoc]
    exact hrec

theorem path_decomp {t : Tree} (pre : List Tree) :
    ∀ {m : Tree} {b : Tree} {post : List Tree},
      Path t (pre ++ b :: post) m → Path t post b := by
  induction pre with
  | nil =>
    intro m b post h
    cases h with
    | step h' hc => exact h'
  | cons a pre' ih =>
    intro m b post h
    cases h with
    | step h' hc => exact ih h'

theorem collectList_sub (S : List Nat) (c : Tree) :
    ∀ cs : List Tree, c ∈ cs →
      ∀ x ∈ collect_leafs_inner S c, x ∈ collectList S cs := by
  intro cs
  induction cs with
  | nil => intro hc; simp at hc
  | cons d ds ih =>
    intro hc x hx
    rcases List.mem_cons.mp hc with h | h
    · subst h
      exact List.mem_append.mpr (Or.inl hx)
    · exact List.mem_append.mpr (Or.inr (ih h x hx))

theorem path_collect_sub {S : List Nat} {t : Tree} {anc : List Tree}
    {n : Tree} (h : Path t anc n) :
    (∀ a ∈ anc, a.id ∉ S) →
      ∀ x ∈ collect_leafs_inner S n, x ∈ collect_leafs_inner S t := by
  induction h with
  | refl => intro _ x hx; exact hx
  | step hpar hc ih =>
    rename_i anc' m c
    intro hall x hx
    have hm : m.id ∉ S := hall m (List.mem_cons_self _ _)
    have hall' : ∀ a ∈ anc', a.id ∉ S :=
      fun a ha => hall a (List.mem_cons_of_mem _ ha)
    refine ih hall' x ?_
    cases hmn : m with
    | node i tx s e cs =>
      rw [hmn] at hc hm
      have hcs : cs.isEmpty = false := by
        cases cs with
        | nil => exact absurd hc (List.not_mem_nil c)
        | cons d ds => rfl
      have hcond : ¬((cs.isEmpty || decide (i ∈ S)) = true) := by
        simp [hcs]
        exact hm
      rw [show collect_leafs_inner S (Tree.node i tx s e cs) =
          collectList S cs from by
        unfold collect_leafs_inner
        rw [if_neg hcond]]
      exact collectList_sub S c cs hc x hx

theorem collect_self {S : List Nat} {n : Tree}
    (h : n.children = [] ∨ n.id ∈ S) :
    Atom.Leaf n.text n.id ∈ collect_leafs_inner S n := by
  cases n with
  | node i tx s e cs =>
    have hcond : (cs.isEmpty || decide (i ∈ S)) = true := by
      rcases h with h | h
      · simp [show cs = [] from h]
      · simp [show i ∈ S from h]
    rw [show collect_leafs_inner S (Tree.node i tx s e cs) =
        [Atom.Leaf tx i] from by
      unfold collect_leafs_inner
      rw [if_pos hcond]]
    exact List.mem_singleton.mpr rfl

theorem mem_leafIds {l : List Atom} {s : String} {i : Nat}
    (h : Atom.Leaf s i ∈ l) : i ∈ leafIds l := by
  unfold leafIds
  exact List.mem_filterMap.mpr ⟨Atom.Leaf s i, h, rfl⟩

theorem parent_leaf_node_spec (S : List Nat) (n : Tree) :
    ∀ chain : List Tree, noNestedSpecified S chain = true →
      (parent_leaf_node S chain n = n ∧ ∀ a ∈ chain, a.id ∉ S) ∨
      (∃ post, (∃ pre, chain = pre ++ parent_leaf_node S chain n :: post) ∧
        (parent_leaf_node S chain n).id ∈ S ∧ ∀ a ∈ post, a.id ∉ S) := by
  intro chain
  induction chain with
  | nil =>
    intro _
    exact Or.inl ⟨rfl, fun a ha => absurd ha (List.not_mem_nil a)⟩
  | cons a rest ih =>
    intro hnn
    by_cases ha : a.id ∈ S
    · have hred : parent_leaf_node S (a :: rest) n = a := by
        show (if a.id ∈ S then a else parent_leaf_node S rest n) = a
        rw [if_pos ha]
      rw [hred]
      refine Or.inr ⟨rest, ⟨[], rfl⟩, ha, ?_⟩
      unfold noNestedSpecified at hnn
      rw [if_pos ha] at hnn
      intro b hb
      have hball := List.all_eq_true.mp hnn b hb
      simpa using hball
    · have hred : parent_leaf_node S (a :: rest) n =
          parent_leaf_node S rest n := by
        show (if a.id ∈ S then a else parent_leaf_node S rest n) =
          parent_leaf_node S rest n
        rw [if_neg ha]
      have hnn' : noNestedSpecified S rest = true := by
        unfold noNestedSpecified at hnn
        rw [if_neg ha] at hnn
        exact hnn
      rw [hred]
      rcases ih hnn' with ⟨heq, hall⟩ | ⟨post, ⟨pre, hdec⟩, hid, hpost⟩
      · refine Or.inl ⟨heq, ?_⟩
        intro b hb
        rcases List.mem_cons.mp hb with h | h
        · subst h; exact ha
        · exact hall b h
      · exact Or.inr ⟨post, ⟨a :: pre, by rw [List.cons_append, ← hdec]⟩,
          hid, hpost⟩

theorem getLastD_mem : ∀ (cs : List Tree) (c : Tree), cs.getLastD c ∈ c :: cs := by
  intro cs
  induction cs with
  | nil => intro c; exact List.mem_cons_self _ _
  | cons d ds ih =>
    intro c
    rw [List.getLastD_cons]
    exact List.mem_cons_of_mem _ (ih d)

theorem lastLeafList_eq (cs : List Tree) :
    ∀ c, lastLeafList c cs = last_leaf (cs.getLastD c) := by
  induction cs with
  | nil => intro c; simp [lastLeafList]
  | cons d ds ih =>
    intro c
    rw [List.getLastD_cons]
    rw [show lastLeafList c (d :: ds) = lastLeafList d ds from by
      simp [lastLeafList]]
    exact ih d

theorem lastLeafChainList_eq (cs : List Tree) :
    ∀ c, lastLeafChainList c cs = lastLeafChain (cs.getLastD c) := by
  induction cs with
  | nil => intro c; simp [lastLeafChainList]
  | cons d ds ih =>
    intro c
    rw [List.getLastD_cons]
    rw [show lastLeafChainList c (d :: ds) = lastLeafChainList d ds from by
      simp [lastLeafChainList]]
    exact ih d

theorem last_leaf_children (n : Tree) : (last_leaf n).children = [] := by
  suffices H : ∀ k, ∀ n : Tree, sizeOf n ≤ k → (last_leaf n).children = [] by
    exact H (sizeOf n) n le_rfl
  intro k
  induction k with
  | zero =>
    intro n hn
    exfalso
    cases n with
    | node i tx s e cs => simp at hn
  | succ k ihk =>
    intro n hn
    cases n with
    | node i tx s e cs =>
      cases cs with
      | nil => simp [last_leaf, Tree.children]
      | cons c cs' =>
        have hred : last_leaf (Tree.node i tx s e (c :: cs')) =
            last_leaf (cs'.getLastD c) := by
          rw [show last_leaf (Tree.node i tx s e (c :: cs')) =
              lastLeafList c cs' from by simp [last_leaf]]
          exact lastLeafList_eq cs' c
        rw [hred]
        refine ihk _ ?_
        have hsz : sizeOf (cs'.getLastD c) < sizeOf (c :: cs') :=
          List.sizeOf_lt_of_mem (getLastD_mem cs' c)
        have hns : sizeOf (Tree.node i tx s e (c :: cs')) =
            1 + sizeOf i + sizeOf tx + sizeOf s + sizeOf e +
              sizeOf (c :: cs') := by
          simp
        omega

theorem path_lastLeafChain (n : Tree) (anc : List Tree) (t : Tree)
    (h : Path t anc n) :
    Path t (lastLeafChain n ++ anc) ( last_leaf n) := by
  suffices H : ∀ k, ∀ n : Tree, sizeOf n ≤ k → ∀ anc t, Path t anc n →
      Path t (lastLeafChain n ++ anc) ( last_leaf n) by
    exact H (sizeOf n) n le_rfl anc t h
  intro k
  induction k with
  | zero =>
    intro n hn
    exfalso
    cases n with
    | node i tx s e cs => simp at hn
  | succ k ihk =>
    intro n hn anc t hpath
    cases n with
    | node i tx s e cs =>
      cases cs with
      | nil =>
        rw [show lastLeafChain (Tree.node i tx s e []) = [] from by
          simp [lastLeafChain]]
        rw [show last_leaf (Tree.node i tx s e []) =
            Tree.node i tx s e [] from by simp [last_leaf]]
        exact hpath
      | cons c cs' =>
        have hm : cs'.getLastD c ∈ (Tree.node i tx s e (c :: cs')).children :=
          getLastD_mem cs' c
        have hstep : Path t (Tree.node i tx s e (c :: cs') :: anc)
            (cs'.getLastD c) := Path.step hpath hm
        have hsz : sizeOf (cs'.getLastD c) ≤ k := by
          have h1 : sizeOf (cs'.getLastD c) < sizeOf (c :: cs') :=
            List.sizeOf_lt_of_mem (getLastD_mem cs' c)
          have h2 : sizeOf (Tree.node i tx s e (c :: cs')) =
              1 + sizeOf i + sizeOf tx + sizeOf s + sizeOf e +
                sizeOf (c :: cs') := by
            simp
          omega
        have hrec := ihk _ hsz (Tree.node i tx s e (c :: cs') :: anc) t hstep
        rw [show lastLeafChain (Tree.node i tx s e (c :: cs')) =
            lastLeafChain (cs'.getLastD c) ++
              [Tree.node i tx s e (c :: cs')] from by
          rw [show lastLeafChain (Tree.node i tx s e (c :: cs')) =
              lastLeafChainList c cs' ++
                [Tree.node i tx s e (c :: cs')] from by
            simp [lastLeafChain]]
          rw [lastLeafChainList_eq]]
        rw [show last_leaf (Tree.node i tx s e (c :: cs')) =
            last_leaf (cs'.getLastD c) from by
          rw [show last_leaf (Tree.node i tx s e (c :: cs')) =
              lastLeafList c cs' from by simp [last_leaf]]
          exact lastLeafList_eq cs' c]
        rw [List.append_assoc]
        exact hrec

/-- Counterexample for claim C3: with nested opaque leaves (node `1`
containing node `2`, both specified), a prepend directive on node `1` is
re-homed by `parent_leaf_node` to the *innermost* specified ancestor `2` of
the first leaf, but `collect_leafs_inner` emitted the *outermost* specified
node `1`, so the new key `2` of the prepend table is not the id of any Leaf
atom. -/
theorem rehoming_nested_opaque_cx :
    Path rootT [rootT] nodeA ∧
    ((nestedLeafCollection.prependAtom Atom.Space nodeA [rootT]).prepend.map
      Prod.fst = [2]) ∧
    (2 ∉ leafIds nestedLeafCollection.atoms) :=
  ⟨Path.step (Path.refl rootT) (List.mem_cons_self _ _),
    by decide, by decide⟩

/-- Claim C3 (amended): for every directive on a node `n` of the tree, when
no specified (opaque) leaf node lies inside another along the ancestor
chains of the first and last leaves under `n`, the ids that the prepend and
append tables are keyed on — the re-homed targets — are ids occurring as
Leaf atoms in the collected sequence: the directive is re-homed to the
first/last descendant leaf, or to its nearest specified ancestor when that
leaf sits inside an opaque leaf. -/
theorem rehoming_targets_are_leaf_atoms (t : Tree) (S : List Nat)
    (n : Tree) (anc : List Tree) (hpath : Path t anc n)
    (h1 : noNestedSpecified S (firstLeafChain n ++ anc) = true)
    (h2 : noNestedSpecified S (lastLeafChain n ++ anc) = true) :
    (prepend_target S n anc).id ∈ leafIds (collect_leafs_inner S t) ∧
    (append_target S n anc).id ∈ leafIds (collect_leafs_inner S t) := by
  constructor
  · have hpl : Path t (firstLeafChain n ++ anc) ( first_leaf n) :=
      path_firstLeafChain n anc t hpath
    unfold prepend_target
    rcases parent_leaf_node_spec S ( first_leaf n) (firstLeafChain n ++ anc)
        h1 with ⟨heq, hall⟩ | ⟨post, ⟨pre, hdec⟩, hid, hpost⟩
    · rw [heq]
      exact mem_leafIds (path_collect_sub hpl hall _
        (collect_self (Or.inl (first_leaf_children n))))
    · have hpB : Path t post
          (parent_leaf_node S (firstLeafChain n ++ anc) ( first_leaf n)) :=
        path_decomp pre (hdec ▸ hpl)
      exact mem_leafIds (path_collect_sub hpB hpost _
        (collect_self (Or.inr hid)))
  · have hpl : Path t (lastLeafChain n ++ anc) ( last_leaf n) :=
      path_lastLeafChain n anc t hpath
    unfold append_target
    rcases parent_leaf_node_spec S ( last_leaf n) (lastLeafChain n ++ anc)
        h2 with ⟨heq, hall⟩ | ⟨post, ⟨pre, hdec⟩, hid, hpost⟩
    · rw [heq]
      exact mem_leafIds (path_collect_sub hpl hall _
        (collect_self (Or.inl (last_leaf_children n))))
    · have hpB : Path t post
          (parent_leaf_node S (lastLeafChain n ++ anc) ( last_leaf n)) :=
        path_decomp pre (hdec ▸ hpl)
      exact mem_leafIds (path_collect_sub hpB hpost _
        (collect_self (Or.inr hid)))

/-- Witness for claim C3: on the flat tree `wRoot` with child `wLeaf` and
no opaque leaves, a directive on the root is re-homed to the leaf `5`,
which is a Leaf atom of the collected sequence. -/
theorem rehoming_targets_are_leaf_atoms_witness :
    Path wRoot [] wRoot ∧
    noNestedSpecified [] (firstLeafChain wRoot ++ []) = true ∧
    noNestedSpecified [] (lastLeafChain wRoot ++ []) = true ∧
    (prepend_target [] wRoot []).id ∈
      leafIds (collect_leafs_inner [] wRoot) ∧
    (append_target [] wRoot []).id ∈
      leafIds (collect_leafs_inner [] wRoot) := by
  have hclast : lastLeafChain wRoot = [wRoot] := by
    rw [show lastLeafChain wRoot = lastLeafChainList wLeaf [] ++ [wRoot]
      from by simp [wRoot, wLeaf, lastLeafChain]]
    rw [show lastLeafChainList wLeaf [] = lastLeafChain wLeaf from by
      simp [lastLeafChainList]]
    rw [show lastLeafChain wLeaf = [] from by simp [wLeaf, lastLeafChain]]
    rfl
  have h2 : noNestedSpecified [] (lastLeafChain wRoot ++ []) = true := by
    rw [hclast]
    decide
  refine ⟨Path.refl wRoot, by decide, h2, ?_⟩
  exact rehoming_targets_are_leaf_atoms wRoot [] wRoot []
    (Path.refl wRoot) (by decide) h2

end Topiary
